import Mathlib

set_option autoImplicit false

/-!
Shallow embedding of the GoSearch core engine, translated from the Go
sources, together with theorems settling the specification claims.

Conventions used throughout:
* Go `uint32`/`uint64` doc ids and generations are modelled as `Nat`
  (no arithmetic in the modelled code can overflow for the values the
  claims quantify over; no wrap-around is exercised).
* Go `int` fields that can be negative (`SlicePostingsIterator.pos`,
  `TopKCollector.k`) are modelled as `Int`.
* Go `float32` scores are modelled as `Rat`; every score occurring in a
  claim is a small whole number, exactly representable in `float32`,
  and the modelled code only copies and compares scores, so comparison
  results coincide with the Go program.
* Go panics and `error` returns are modelled with `Option`.
-/

/-! ### Go `container/heap` (used by `engine.scoreHeap` and `engine.iterHeap`)

The Go standard library's array-based binary heap, generic over the
`heap.Interface` comparison, modelled over `List α` with a boolean
`lt` comparison.  `hswap` is `h.Swap`, `heapUpGo`/`heapDownGo` are the
internal `up`/`down` sift loops (`down` also reports its final index,
which Go uses as the `i > i0` return value), and `heapInit`,
`heapPush`, `heapPop`, `heapFix` are `heap.Init`, `heap.Push`,
`heap.Pop`, `heap.Fix`. -/

def hswap {α : Type} [Inhabited α] (l : List α) (i j : ℕ) : List α :=
  (l.set i (l.getD j default)).set j (l.getD i default)

def heapDownGo {α : Type} [Inhabited α] (lt : α → α → Bool) :
    ℕ → List α → ℕ → ℕ → List α × ℕ
  | 0, l, i, _ => (l, i)
  | fuel+1, l, i, n =>
    let j1 := 2*i+1
    if j1 ≥ n then (l, i)
    else
      let j := if j1+1 < n && lt (l.getD (j1+1) default) (l.getD j1 default) then j1+1 else j1
      if lt (l.getD j default) (l.getD i default) then heapDownGo lt fuel (hswap l i j) j n
      else (l, i)

def heapDown {α : Type} [Inhabited α] (lt : α → α → Bool) (l : List α) (i n : ℕ) :
    List α × ℕ :=
  heapDownGo lt n l i n

def heapUpGo {α : Type} [Inhabited α] (lt : α → α → Bool) :
    ℕ → List α → ℕ → List α
  | 0, l, _ => l
  | fuel+1, l, j =>
    let i := (j-1)/2
    if i = j || !(lt (l.getD j default) (l.getD i default)) then l
    else heapUpGo lt fuel (hswap l i j) i

def heapUp {α : Type} [Inhabited α] (lt : α → α → Bool) (l : List α) (j : ℕ) : List α :=
  heapUpGo lt (j+1) l j

def heapInitGo {α : Type} [Inhabited α] (lt : α → α → Bool) : ℕ → List α → List α
  | 0, l => l
  | i+1, l => heapInitGo lt i (heapDown lt l i l.length).1

def heapInit {α : Type} [Inhabited α] (lt : α → α → Bool) (l : List α) : List α :=
  heapInitGo lt (l.length / 2) l

def heapPush {α : Type} [Inhabited α] (lt : α → α → Bool) (l : List α) (x : α) : List α :=
  heapUp lt (l ++ [x]) l.length

def heapPop {α : Type} [Inhabited α] (lt : α → α → Bool) (l : List α) : α × List α :=
  let n := l.length - 1
  let l1 := hswap l 0 n
  let l2 := (heapDown lt l1 0 n).1
  (l2.getD n default, l2.take n)

def heapFix {α : Type} [Inhabited α] (lt : α → α → Bool) (l : List α) (i : ℕ) : List α :=
  let r := heapDown lt l i l.length
  if r.2 > i then r.1 else heapUp lt r.1 i

/-! ### `engine.TopKCollector` (src/unnamed/part_001) -/

structure ScoredDoc where
  docID : ℕ
  score : ℚ
deriving DecidableEq, Repr

instance : Inhabited ScoredDoc := ⟨⟨0, 0⟩⟩

/-- `scoreHeap.Less`: min-heap ordered by score. -/
def scoreLess (a b : ScoredDoc) : Bool := a.score < b.score

structure TopKCollector where
  k : ℤ
  h : List ScoredDoc
  minScore : ℚ
deriving DecidableEq, Repr

/-- `engine.NewTopKCollector`: `k <= 0` is silently replaced by 10. -/
def NewTopKCollector (k : ℤ) : TopKCollector :=
  let k := if k ≤ 0 then 10 else k
  { k := k, h := [], minScore := 0 }

/-- `TopKCollector.Collect`. -/
def TopKCollector.collect (c : TopKCollector) (docID : ℕ) (score : ℚ) : TopKCollector :=
  if (c.h.length : ℤ) < c.k then
    let h1 := heapPush scoreLess c.h ⟨docID, score⟩
    if (h1.length : ℤ) = c.k then { c with h := h1, minScore := (h1.getD 0 default).score }
    else { c with h := h1 }
  else if c.minScore < score then
    let h1 := heapFix scoreLess (c.h.set 0 ⟨docID, score⟩) 0
    { c with h := h1, minScore := (h1.getD 0 default).score }
  else c

/-- `TopKCollector.MinScore`. -/
def TopKCollector.MinScore (c : TopKCollector) : ℚ := c.minScore

def TopKCollector.resultsGo : ℕ → List ScoredDoc → List ScoredDoc → List ScoredDoc
  | 0, _, acc => acc
  | fuel+1, h, acc =>
    if h.length = 0 then acc
    else
      let p := heapPop scoreLess h
      TopKCollector.resultsGo fuel p.2 (p.1 :: acc)

/-- `TopKCollector.Results`: drain the heap; `result[i]` for `i` from
`len-1` down to `0` receives successive `heap.Pop`s, so the returned
slice is sorted descending by score. -/
def TopKCollector.results (c : TopKCollector) : List ScoredDoc :=
  TopKCollector.resultsGo c.h.length c.h []

/-- The collector state after collecting `(1,1.0), (2,3.0), (3,2.0), (4,5.0)`
into a `K=3` collector (the first four collects of spec scenario 6). -/
def topKAfter4 : TopKCollector :=
  ((((NewTopKCollector 3).collect 1 1).collect 2 3).collect 3 2).collect 4 5

/-- The collector state after the fifth collect `(5,4.0)`. -/
def topKAfter5 : TopKCollector := topKAfter4.collect 5 4

/-- Claim C4, counterexample: with K=3 and the collects
`(1,1.0), (2,3.0), (3,2.0), (4,5.0), (5,4.0)`, `min_score()` after the
fourth collect is 2.0 (the heap then holds scores {2,3,5}), not 3.0 as
the claim states, and after the fifth collect it is 3.0, not 4.0. -/
theorem C4_counterexample :
    ¬ (topKAfter4.MinScore = 3 ∧ topKAfter5.MinScore = 4) := by decide

/-- Claim C4 (corrected): for a TopKCollector with K=3 collecting
`(1,1.0), (2,3.0), (3,2.0), (4,5.0), (5,4.0)` in that order,
`results()` returns `[(4,5.0), (5,4.0), (2,3.0)]` as claimed, but
`min_score()` is 2.0 immediately after the fourth collect and 3.0
immediately after the fifth. -/
theorem C4_amended :
    topKAfter5.results = [⟨4, 5⟩, ⟨5, 4⟩, ⟨2, 3⟩] ∧
      topKAfter4.MinScore = 2 ∧ topKAfter5.MinScore = 3 := by decide

/-- Twelve documents with doc id `i` and score `i` for `i = 1..12`,
collected into a collector constructed with `k = 0`. -/
def topKZeroDemo : TopKCollector :=
  ([(1,1), (2,2), (3,3), (4,4), (5,5), (6,6), (7,7), (8,8), (9,9), (10,10), (11,11), (12,12)] :
      List (ℕ × ℚ)).foldl (fun c p => c.collect p.1 p.2) (NewTopKCollector 0)

/-- Claim C10 (confirmed): `NewTopKCollector` with `k ≤ 0` does not fail;
it builds the same collector as `NewTopKCollector 10`, and (demonstrated
on twelve documents with distinct scores 1..12) such a collector retains
the 10 highest-scoring documents. -/
theorem C10_newTopK_nonpositive (k : ℤ) (hk : k ≤ 0) :
    NewTopKCollector k = NewTopKCollector 10 ∧
      topKZeroDemo.results =
        [⟨12,12⟩, ⟨11,11⟩, ⟨10,10⟩, ⟨9,9⟩, ⟨8,8⟩, ⟨7,7⟩, ⟨6,6⟩, ⟨5,5⟩, ⟨4,4⟩, ⟨3,3⟩] := by
  refine ⟨?_, by decide⟩
  simp only [NewTopKCollector, if_pos hk]
  norm_num

/-- Claim C10, witness: instantiation at `k = -5`. -/
theorem C10_witness :
    NewTopKCollector (-5) = NewTopKCollector 10 ∧
      topKZeroDemo.results =
        [⟨12,12⟩, ⟨11,11⟩, ⟨10,10⟩, ⟨9,9⟩, ⟨8,8⟩, ⟨7,7⟩, ⟨6,6⟩, ⟨5,5⟩, ⟨4,4⟩, ⟨3,3⟩] :=
  C10_newTopK_nonpositive (-5) (by decide)

/-! ### Association-list helpers

The Go code stores `SegmentRef` values behind shared pointers
(`map[string]*SegmentRef`, `Snapshot.Segments []*SegmentRef`).  The
model makes the sharing explicit: a store maps abstract pointers
(naturals) to `SegmentRef` values, and both the manager's segment map
and each snapshot hold pointers into that store. -/

def alistGet {κ β : Type} [DecidableEq κ] (k : κ) : List (κ × β) → Option β
  | [] => none
  | (k', v) :: rest => if k = k' then some v else alistGet k rest

def alistSet {κ β : Type} [DecidableEq κ] (k : κ) (v : β) : List (κ × β) → List (κ × β)
  | [] => []
  | (k', v') :: rest => if k = k' then (k', v) :: rest else (k', v') :: alistSet k v rest

/-! ### `snapshot.SegmentRef` (src/unnamed/part_003) -/

structure SegmentRef where
  segmentID : String
  refCount : ℤ
  inManifest : Bool
deriving DecidableEq, Repr

instance : Inhabited SegmentRef := ⟨⟨"", 0, false⟩⟩

/-- `SegmentRef.CanReclaim`: reference count zero and not referenced by
the current manifest. -/
def SegmentRef.CanReclaim (r : SegmentRef) : Bool := r.refCount = 0 && !r.inManifest

/-! ### `snapshot.Snapshot` (src/unnamed/part_004) -/

structure Snapshot where
  id : ℕ
  generation : ℕ
  segments : List ℕ
  released : Bool
deriving DecidableEq, Repr

/-! ### `snapshot.Manager` (src/internal/snapshot/manager.go) -/

structure Manager where
  refStore : List (ℕ × SegmentRef)
  nextRef : ℕ
  currentGeneration : ℕ
  currentSegments : List (String × ℕ)
  snapStore : List (ℕ × Snapshot)
  activeSnapshots : List ℕ
  nextSnapshotID : ℕ
deriving DecidableEq, Repr

instance : Inhabited Manager := ⟨⟨[], 0, 0, [], [], [], 0⟩⟩

/-- `snapshot.NewManager`: one fresh `SegmentRef` per initial segment id,
each marked `in_manifest`. -/
def NewManager (initialGeneration : ℕ) (segmentIDs : List String) : Manager :=
  { refStore := segmentIDs.enum.map (fun p => (p.1, ⟨p.2, 0, true⟩)),
    nextRef := segmentIDs.length,
    currentGeneration := initialGeneration,
    currentSegments := segmentIDs.enum.map (fun p => (p.2, p.1)),
    snapStore := [],
    activeSnapshots := [],
    nextSnapshotID := 0 }

/-- `SegmentRef.Pin` applied through a pointer (atomic increment). -/
def refPin (store : List (ℕ × SegmentRef)) (p : ℕ) : List (ℕ × SegmentRef) :=
  match alistGet p store with
  | none => store
  | some r => alistSet p { r with refCount := r.refCount + 1 } store

/-- `SegmentRef.Unpin` through a pointer; `none` models the Go panic on a
negative reference count (and the impossible dangling pointer). -/
def refUnpin (store : List (ℕ × SegmentRef)) (p : ℕ) : Option (List (ℕ × SegmentRef)) :=
  match alistGet p store with
  | none => none
  | some r => if r.refCount - 1 < 0 then none
              else some (alistSet p { r with refCount := r.refCount - 1 } store)

def unpinAll (store : List (ℕ × SegmentRef)) : List ℕ → Option (List (ℕ × SegmentRef))
  | [] => some store
  | p :: ps =>
    match refUnpin store p with
    | none => none
    | some store' => unpinAll store' ps

/-- `Manager.Acquire`: snapshot the current generation, pin every current
segment ref (empty segment list at generation 0), register the snapshot. -/
def Manager.Acquire (m : Manager) : Snapshot × Manager :=
  let generation := m.currentGeneration
  let segments : List ℕ :=
    if generation ≠ 0 then m.currentSegments.map (·.2) else []
  let store' := segments.foldl refPin m.refStore
  let sid := m.nextSnapshotID + 1
  let snap : Snapshot := { id := sid, generation := generation, segments := segments, released := false }
  (snap, { m with refStore := store',
                  nextSnapshotID := sid,
                  snapStore := (sid, snap) :: m.snapStore,
                  activeSnapshots := sid :: m.activeSnapshots })

/-- One step of `Manager.UpdateGeneration`'s first loop: carry an existing
ref forward, or create a fresh ref with `in_manifest = true`. -/
def updGenCarry (cur : List (String × ℕ)) :
    List (String × ℕ) × List (ℕ × SegmentRef) × ℕ → String →
    List (String × ℕ) × List (ℕ × SegmentRef) × ℕ
  | (segs, store, nxt), id =>
    match alistGet id cur with
    | some ptr => (segs ++ [(id, ptr)], store, nxt)
    | none => (segs ++ [(id, nxt)], store ++ [(nxt, ⟨id, 0, true⟩)], nxt + 1)

/-- One step of `Manager.UpdateGeneration`'s second loop: for an id leaving
the manifest, clear `in_manifest` and, if the ref is reclaimable at that
instant, append the id to the returned list. -/
def updGenMark (ids : List String) :
    List String × List (ℕ × SegmentRef) → String × ℕ →
    List String × List (ℕ × SegmentRef)
  | (rec, store), (id, ptr) =>
    if ids.contains id then (rec, store)
    else
      match alistGet ptr store with
      | none => (rec, store)
      | some r =>
        let r' := { r with inManifest := false }
        let store' := alistSet ptr r' store
        if r'.CanReclaim then (rec ++ [id], store') else (rec, store')

/-- `Manager.UpdateGeneration`: `none` models the Go panic when
`newGeneration ≤ currentGeneration` (the check precedes every mutation,
so the panic leaves the manager unmodified). -/
def Manager.UpdateGeneration (m : Manager) (newGeneration : ℕ) (newSegmentIDs : List String) :
    Option (List String × Manager) :=
  if newGeneration ≤ m.currentGeneration then none
  else
    let built := newSegmentIDs.foldl (updGenCarry m.currentSegments) ([], m.refStore, m.nextRef)
    let marked := m.currentSegments.foldl (updGenMark newSegmentIDs) ([], built.2.1)
    some (marked.1,
      { m with currentGeneration := newGeneration,
               currentSegments := built.1,
               refStore := marked.2,
               nextRef := built.2.2 })

/-- `Snapshot.Release` (src/unnamed/part_004), keyed by snapshot id:
idempotent via the released flag; unpin every pinned ref, then remove the
snapshot from the active set.  `none` models the Unpin panic. -/
def Manager.Release (m : Manager) (sid : ℕ) : Option Manager :=
  match alistGet sid m.snapStore with
  | none => none
  | some snap =>
    if snap.released then some m
    else
      match unpinAll m.refStore snap.segments with
      | none => none
      | some store' =>
        some { m with refStore := store',
                      snapStore := alistSet sid { snap with released := true } m.snapStore,
                      activeSnapshots := m.activeSnapshots.filter (· ≠ sid) }

/-- `Manager.Reclaimable`: scan the *currently tracked* segment map for
refs whose `CanReclaim` holds. -/
def Manager.Reclaimable (m : Manager) : List String :=
  m.currentSegments.filterMap (fun e =>
    match alistGet e.2 m.refStore with
    | some r => if r.CanReclaim then some e.1 else none
    | none => none)

/-- `Manager.SegmentRefCount`: −1 for ids the manager does not track. -/
def Manager.SegmentRefCount (m : Manager) (id : String) : ℤ :=
  match alistGet id m.currentSegments with
  | some ptr =>
    match alistGet ptr m.refStore with
    | some r => r.refCount
    | none => -1
  | none => -1

/-! ### Lemmas about the snapshot manager model -/

theorem alistGet_alistSet_self {κ β : Type} [DecidableEq κ] (k : κ) (v w : β)
    (l : List (κ × β)) (h : alistGet k l = some w) :
    alistGet k (alistSet k v l) = some v := by
  induction l with
  | nil => simp [alistGet] at h
  | cons p rest ih =>
    obtain ⟨k', v'⟩ := p
    by_cases hk : k = k'
    · simp [alistGet, alistSet, hk]
    · simp only [alistGet, alistSet, if_neg hk] at h ⊢
      exact ih h

/-- Claim C9 (confirmed): snapshot release is idempotent.  If a release
succeeds (no Unpin panic), a second release of the same snapshot returns
success and leaves the manager state — in particular every segment
ref count — exactly as it was after the first release: the refs pinned
by the snapshot are unpinned exactly once. -/
theorem C9_release_idempotent (m : Manager) (sid : ℕ) (m₁ : Manager)
    (h : m.Release sid = some m₁) : m₁.Release sid = some m₁ := by
  cases hget : alistGet sid m.snapStore with
  | none =>
    simp only [Manager.Release, hget] at h
    exact absurd h (by simp)
  | some snap =>
    by_cases hrel : snap.released
    · simp only [Manager.Release, hget, hrel, if_true] at h
      injection h with h'
      subst h'
      simp only [Manager.Release, hget, hrel, if_true]
    · simp only [Manager.Release, hget, hrel, if_false] at h
      cases hun : unpinAll m.refStore snap.segments with
      | none => rw [hun] at h; exact absurd h (by simp)
      | some store' =>
        rw [hun] at h
        injection h with h'
        subst h'
        simp only [Manager.Release,
          alistGet_alistSet_self sid { snap with released := true } snap m.snapStore hget]
        simp

def c9Demo : Manager := (NewManager 1 ["seg_a"]).Acquire.2

def c9DemoReleased : Manager := (c9Demo.Release 1).getD default

/-- Claim C9, witness: acquire a snapshot pinning `seg_a`, release it,
then release it again; the second release succeeds with no state change. -/
theorem C9_witness :
    c9Demo.Release 1 = some c9DemoReleased ∧
      c9DemoReleased.Release 1 = some c9DemoReleased :=
  ⟨by decide, C9_release_idempotent c9Demo 1 c9DemoReleased (by decide)⟩

theorem updateGeneration_spec (m : Manager) (g : ℕ) (ids : List String)
    (r : List String) (m' : Manager) (h : m.UpdateGeneration g ids = some (r, m')) :
    m.currentGeneration < g ∧ m'.currentGeneration = g ∧
      m'.currentSegments =
        (ids.foldl (updGenCarry m.currentSegments) ([], m.refStore, m.nextRef)).1 := by
  unfold Manager.UpdateGeneration at h
  by_cases hle : g ≤ m.currentGeneration
  · simp [hle] at h
  · simp only [if_neg hle] at h
    injection h with h'
    injection h' with hr hm
    subst hm
    exact ⟨by omega, rfl, rfl⟩

/-- Sequential application of `UpdateGeneration` calls; a panic aborts. -/
def runUpdates (m : Manager) : List (ℕ × List String) → Option Manager
  | [] => some m
  | (g, ids) :: rest =>
    match m.UpdateGeneration g ids with
    | none => none
    | some p => runUpdates p.2 rest

/-- Claim C8 (confirmed): `update_generation` with `new_g ≤ current`
panics (modelled by `none`; the check precedes every mutation), and over
any sequence of successful calls the current generation is strictly
monotonically increasing, ending at the last requested generation. -/
theorem C8_generation_monotonic :
    (∀ (m : Manager) (g : ℕ) (ids : List String),
        g ≤ m.currentGeneration → m.UpdateGeneration g ids = none) ∧
    (∀ (calls : List (ℕ × List String)) (m m' : Manager),
        runUpdates m calls = some m' →
          List.Chain (· < ·) m.currentGeneration (calls.map Prod.fst) ∧
            m'.currentGeneration = (calls.map Prod.fst).getLastD m.currentGeneration) := by
  constructor
  · intro m g ids hle
    unfold Manager.UpdateGeneration
    simp [hle]
  · intro calls
    induction calls with
    | nil =>
      intro m m' h
      injection h with h'
      subst h'
      simp
    | cons c rest ih =>
      intro m m' h
      obtain ⟨g, ids⟩ := c
      simp only [runUpdates] at h
      cases hupd : m.UpdateGeneration g ids with
      | none => rw [hupd] at h; exact absurd h (by simp)
      | some p =>
        rw [hupd] at h
        obtain ⟨hlt, hgen, -⟩ := updateGeneration_spec m g ids p.1 p.2 hupd
        obtain ⟨hchain, hlast⟩ := ih p.2 m' h
        rw [hgen] at hchain hlast
        refine ⟨List.Chain.cons hlt hchain, ?_⟩
        rw [List.map_cons, List.getLastD_cons]
        exact hlast

def c8Demo : Manager := (runUpdates (NewManager 1 []) [(2, []), (5, [])]).getD default

/-- Claim C8, witness: `update_generation(3)` on a manager at generation 5
panics, and the successful call sequence `2, 5` from generation 1 yields
the strictly increasing chain `1 < 2 < 5`. -/
theorem C8_witness :
    (NewManager 5 []).UpdateGeneration 3 [] = none ∧
      List.Chain (· < ·) (NewManager 1 []).currentGeneration [2, 5] :=
  ⟨C8_generation_monotonic.1 (NewManager 5 []) 3 [] (by decide),
   (C8_generation_monotonic.2 [(2, []), (5, [])] (NewManager 1 []) c8Demo (by decide)).1⟩

/-! ### Claim C1: reclamation after the last release -/

/-- Reader-side manager operations (no further commits). -/
inductive MgrOp where
  | acquireOp : MgrOp
  | releaseOp (sid : ℕ) : MgrOp
deriving DecidableEq, Repr

def runOps (m : Manager) : List MgrOp → Option Manager
  | [] => some m
  | .acquireOp :: rest => runOps m.Acquire.2 rest
  | .releaseOp sid :: rest =>
    match m.Release sid with
    | none => none
    | some m₁ => runOps m₁ rest

theorem release_currentSegments (m : Manager) (sid : ℕ) (m₁ : Manager)
    (h : m.Release sid = some m₁) : m₁.currentSegments = m.currentSegments := by
  cases hget : alistGet sid m.snapStore with
  | none =>
    simp only [Manager.Release, hget] at h
    exact absurd h (by simp)
  | some snap =>
    by_cases hrel : snap.released
    · simp only [Manager.Release, hget, hrel, if_true] at h
      injection h with h'
      subst h'
      rfl
    · simp only [Manager.Release, hget, hrel, if_false] at h
      cases hun : unpinAll m.refStore snap.segments with
      | none => rw [hun] at h; exact absurd h (by simp)
      | some store' =>
        rw [hun] at h
        injection h with h'
        subst h'
        rfl

theorem runOps_currentSegments (ops : List MgrOp) :
    ∀ (m m' : Manager), runOps m ops = some m' →
      m'.currentSegments = m.currentSegments := by
  induction ops with
  | nil =>
    intro m m' h
    injection h with h'
    subst h'
    rfl
  | cons op rest ih =>
    intro m m' h
    cases op with
    | acquireOp =>
      simp only [runOps] at h
      exact (ih m.Acquire.2 m' h).trans rfl
    | releaseOp sid =>
      simp only [runOps] at h
      cases hrel : m.Release sid with
      | none => rw [hrel] at h; exact absurd h (by simp)
      | some m₁ =>
        rw [hrel] at h
        rw [ih _ _ h, release_currentSegments m sid m₁ hrel]

theorem mem_reclaimable_mem_keys (m : Manager) (x : String)
    (h : x ∈ m.Reclaimable) : x ∈ m.currentSegments.map Prod.fst := by
  unfold Manager.Reclaimable at h
  rw [List.mem_filterMap] at h
  obtain ⟨e, he, hfe⟩ := h
  cases hg : alistGet e.2 m.refStore with
  | none => rw [hg] at hfe; simp at hfe
  | some r =>
    rw [hg] at hfe
    by_cases hcr : r.CanReclaim
    · simp only [hcr, if_true, Option.some.injEq] at hfe
      subst hfe
      exact List.mem_map_of_mem Prod.fst he
    · simp [hcr] at hfe

theorem updGenCarry_fold_keys (cur : List (String × ℕ)) (ids : List String) :
    ∀ (acc : List (String × ℕ) × List (ℕ × SegmentRef) × ℕ) (x : String),
      x ∈ (ids.foldl (updGenCarry cur) acc).1.map Prod.fst →
        x ∈ acc.1.map Prod.fst ∨ x ∈ ids := by
  induction ids with
  | nil =>
    intro acc x h
    exact Or.inl h
  | cons a rest ih =>
    intro acc x h
    rw [List.foldl_cons] at h
    rcases ih (updGenCarry cur acc a) x h with h' | h'
    · obtain ⟨segs, store, nxt⟩ := acc
      cases hga : alistGet a cur with
      | none =>
        simp only [updGenCarry, hga, List.map_append, List.mem_append] at h'
        rcases h' with h'' | h''
        · exact Or.inl h''
        · simp at h''
          exact Or.inr (by simp [h''])
      | some ptr =>
        simp only [updGenCarry, hga, List.map_append, List.mem_append] at h'
        rcases h' with h'' | h''
        · exact Or.inl h''
        · simp at h''
          exact Or.inr (by simp [h''])
    · exact Or.inr (List.mem_cons_of_mem a h')

/-- Claim C1 (corrected, general form): if `update_generation` removes a
segment id — pinned or not — then as long as no later commit re-adds it,
no subsequent `Reclaimable()` call ever returns that id: the update drops
the ref from `currentSegments`, `Reclaimable` only scans
`currentSegments`, and reader operations never change it.  In particular
the final `release` of the pinning snapshot does *not* make the id
appear in `Reclaimable()`. -/
theorem C1_amended (m : Manager) (g : ℕ) (ids : List String)
    (r : List String) (m' : Manager) (ops : List MgrOp) (m'' : Manager) (id : String)
    (hupd : m.UpdateGeneration g ids = some (r, m'))
    (hops : runOps m' ops = some m'')
    (hid : id ∉ ids) :
    id ∉ m''.Reclaimable ∧ id ∉ m''.currentSegments.map Prod.fst := by
  obtain ⟨-, -, hsegs⟩ := updateGeneration_spec m g ids r m' hupd
  have hkeys : id ∉ m'.currentSegments.map Prod.fst := by
    intro hmem
    rw [hsegs] at hmem
    rcases updGenCarry_fold_keys m.currentSegments ids ([], m.refStore, m.nextRef) id hmem with h | h
    · simp at h
    · exact hid h
  have hkeys'' : id ∉ m''.currentSegments.map Prod.fst := by
    rw [runOps_currentSegments ops m' m'' hops]
    exact hkeys
  exact ⟨fun hrec => hkeys'' (mem_reclaimable_mem_keys m'' id hrec), hkeys''⟩

/-- Generation 1 with one segment `seg_a` (ref pointer 0), pinned by one
acquired snapshot (snapshot id 1). -/
def c1Pinned : Manager := (NewManager 1 ["seg_a"]).Acquire.2

/-- The result of `update_generation(2, [seg_b])` on `c1Pinned`. -/
def c1Upd : List String × Manager := (c1Pinned.UpdateGeneration 2 ["seg_b"]).getD ([], default)

/-- The manager after the pinning snapshot is released. -/
def c1AfterRelease : Manager := (c1Upd.2.Release 1).getD default

/-- Claim C1, counterexample: `seg_a` has ref_count 1 when
`update_generation(2, [seg_b])` removes it, so it is absent from the
returned reclaimable list; after the last pinning snapshot is released
its ref has `ref_count = 0` and `in_manifest = false`, yet
`Reclaimable()` returns the empty list — it does *not* contain `seg_a`,
contradicting the claim. -/
theorem C1_counterexample :
    c1Pinned.SegmentRefCount "seg_a" = 1 ∧
      c1Pinned.UpdateGeneration 2 ["seg_b"] = some c1Upd ∧
      c1Upd.1 = [] ∧
      c1Upd.2.Release 1 = some c1AfterRelease ∧
      alistGet 0 c1AfterRelease.refStore = some ⟨"seg_a", 0, false⟩ ∧
      c1AfterRelease.Reclaimable = [] := by decide

/-- Claim C1, witness for the general theorem: the scenario of the
counterexample instantiates it — after `seg_a` leaves the manifest and
the snapshot is released, `Reclaimable()` does not list `seg_a`. -/
theorem C1_witness :
    "seg_a" ∉ c1AfterRelease.Reclaimable ∧
      "seg_a" ∉ c1AfterRelease.currentSegments.map Prod.fst :=
  C1_amended c1Pinned 2 ["seg_b"] c1Upd.1 c1Upd.2 [.releaseOp 1] c1AfterRelease "seg_a"
    (by decide) (by decide) (by decide)

/-! ### `recovery.Recover` (src/internal/recovery/recovery.go)

The file system is abstracted to exactly what the recovery control flow
inspects: the parsed value of `manifest.current` (`0` for missing or
empty), whether `LoadManifest` succeeds for each generation, and whether
`step3VerifySegments` finds no corrupt segment in that generation's
manifest.  Steps 5–8 (tmp/orphan/manifest cleanup) only produce warnings
and removed-path lists and are not modelled. -/

structure RecFS where
  current : ℕ
  manifestOK : ℕ → Bool
  segmentsOK : ℕ → Bool

structure RecoveryResult where
  generation : ℕ
  fellBack : Bool
  fellBackFrom : ℕ
deriving DecidableEq, Repr

/-- `index.LoadManifestWithFallback` (src/unnamed/part_006): try
generations `g, g-1, …, 1` until one loads; `none` when all fail. -/
def loadManifestWithFallback (fs : RecFS) : ℕ → Option ℕ
  | 0 => none
  | g+1 => if fs.manifestOK (g+1) then some (g+1) else loadManifestWithFallback fs g

/-- `step4HandleCorruptSegments`: try `currentGen-1, …, 1` until a
manifest loads *and* all its segments verify; `none` models
`ErrRecoveryImpossible`. -/
def step4Go (fs : RecFS) : ℕ → Option ℕ
  | 0 => none
  | g+1 => if fs.manifestOK (g+1) && fs.segmentsOK (g+1) then some (g+1)
           else step4Go fs g

def step4HandleCorruptSegments (fs : RecFS) (currentGen : ℕ) : Option ℕ :=
  step4Go fs (currentGen - 1)

/-- `recovery.Recover`, steps 1–4 and 9; returns the recovery result and
the value held by `manifest.current` afterwards (`WriteCurrentGeneration`
is the only write to it, performed only inside the step-4 block). -/
def Recover (fs : RecFS) : Option (RecoveryResult × ℕ) :=
  let generation := fs.current
  if generation = 0 then
    some ({ generation := 0, fellBack := false, fellBackFrom := 0 }, fs.current)
  else
    match loadManifestWithFallback fs generation with
    | none => none
    | some actualGen =>
      let fellBack2 := decide (actualGen ≠ generation)
      if fs.segmentsOK actualGen then
        some ({ generation := actualGen,
                fellBack := fellBack2,
                fellBackFrom := if fellBack2 then generation else 0 }, fs.current)
      else
        match step4HandleCorruptSegments fs actualGen with
        | none => none
        | some gen3 =>
          some ({ generation := gen3, fellBack := true, fellBackFrom := actualGen }, gen3)

/-- A file system whose `manifest.current` reads 2 but where only the
generation-1 manifest loads (gen 2 is corrupt), gen 1's segments intact. -/
def c2FS : RecFS :=
  { current := 2, manifestOK := fun g => g == 1, segmentsOK := fun g => g == 1 }

/-- Claim C2, counterexample: with `manifest.current = 2`, the gen-2
manifest corrupt and gen 1 fully intact, recovery selects generation 1
(< 2) with `fell_back = true` and `fell_back_from = 2`, but
`manifest.current` still reads 2 afterwards — it is *not* rewritten to
the recovered generation, because the rewrite only happens in the
corrupt-segments step 4. -/
theorem C2_counterexample :
    Recover c2FS = some ({ generation := 1, fellBack := true, fellBackFrom := 2 }, 2) ∧
      ¬ (2 = (1 : ℕ)) := by decide

/-- Claim C2 (corrected): whenever recovery selects a generation lower
than the one read from `manifest.current`, it returns `fell_back = true`;
but `manifest.current` is rewritten (to the recovered generation) only
when step 3 found corrupt segments in the manifest chosen by step 2 — in
that case `fell_back_from` is the generation chosen by step 2 (not
necessarily the originally read one).  When the step-2 manifest's
segments all verify, `manifest.current` is left at the originally read
generation and `fell_back_from` is the originally read generation. -/
theorem C2_amended (fs : RecFS) (r : RecoveryResult) (cAfter : ℕ)
    (h : Recover fs = some (r, cAfter)) (hlow : r.generation < fs.current) :
    r.fellBack = true ∧
      (∀ a, loadManifestWithFallback fs fs.current = some a →
        (fs.segmentsOK a = true →
          cAfter = fs.current ∧ r.fellBackFrom = fs.current ∧ r.generation = a) ∧
        (fs.segmentsOK a = false →
          cAfter = r.generation ∧ r.fellBackFrom = a)) := by
  unfold Recover at h
  by_cases h0 : fs.current = 0
  · simp only [h0, if_true] at h
    injection h with h'
    injection h' with h1 h2
    subst h1
    rw [h0] at hlow
    exact absurd hlow (by simp)
  · simp only [h0, if_false] at h
    cases hl : loadManifestWithFallback fs fs.current with
    | none => rw [hl] at h; exact absurd h (by simp)
    | some a =>
      rw [hl] at h
      by_cases hs : fs.segmentsOK a
      · simp only [hs, if_true] at h
        injection h with h'
        injection h' with h1 h2
        subst h1 h2
        have hne : a ≠ fs.current := by
          intro heq
          simp only at hlow
          omega
        refine ⟨by simp [hne], ?_⟩
        intro a' ha'
        injection ha' with ha'
        subst ha'
        exact ⟨fun _ => ⟨rfl, by simp [hne], rfl⟩, fun hfalse => absurd hs (by simp [hfalse])⟩
      · simp only [hs, if_false] at h
        cases h4 : step4HandleCorruptSegments fs a with
        | none => rw [h4] at h; exact absurd h (by simp)
        | some gen3 =>
          rw [h4] at h
          injection h with h'
          injection h' with h1 h2
          subst h1 h2
          refine ⟨rfl, ?_⟩
          intro a' ha'
          injection ha' with ha'
          subst ha'
          exact ⟨fun htrue => absurd htrue (by simpa using hs), fun _ => ⟨rfl, rfl⟩⟩

/-- A file system at generation 3 where every manifest loads but only
generation 1's segments verify: step 4 falls back to 1 and rewrites. -/
def c2FS4 : RecFS :=
  { current := 3, manifestOK := fun _ => true, segmentsOK := fun g => g == 1 }

/-- Claim C2, witness: on `c2FS4`, recovery returns generation 1 with
`fell_back = true`, `fell_back_from = 3`, and rewrites `manifest.current`
to 1 (the corrupt-segments path of the amended claim). -/
theorem C2_witness :
    ({ generation := 1, fellBack := true, fellBackFrom := 3 } : RecoveryResult).fellBack = true ∧
      (1 : ℕ) = ({ generation := 1, fellBack := true, fellBackFrom := 3 } : RecoveryResult).generation ∧
      ({ generation := 1, fellBack := true, fellBackFrom := 3 } : RecoveryResult).fellBackFrom = 3 := by
  have h := C2_amended c2FS4 { generation := 1, fellBack := true, fellBackFrom := 3 } 1
    (by decide) (by decide)
  refine ⟨h.1, ?_, ?_⟩
  · exact ((h.2 3 (by decide)).2 (by decide)).1.symm
  · exact ((h.2 3 (by decide)).2 (by decide)).2

/-! ### `automaton.LevenshteinAutomaton` (src/internal/automaton, part of
src/internal/coordinator/query_plan.go's concatenation)

Bytes are modelled as naturals; `State` is a natural with `DeadState = 0`. -/

def DeadState : ℕ := 0

structure LevenshteinAutomaton where
  target : List ℕ
  maxDist : ℕ
deriving DecidableEq, Repr

/-- `NewLevenshteinAutomaton`: distances above `MaxEditDistance = 2` are
rejected (`ErrEditDistanceTooLarge`). -/
def NewLevenshteinAutomaton (target : List ℕ) (maxDist : ℕ) :
    Option LevenshteinAutomaton :=
  if maxDist > 2 then none else some { target := target, maxDist := maxDist }

/-- State encoding `pos*(maxDist+1) + editsUsed + 1`, clamped to
`DeadState` outside the representable ranges. -/
def LevenshteinAutomaton.encodeState (a : LevenshteinAutomaton) (pos edits : ℕ) : ℕ :=
  if edits > a.maxDist then DeadState
  else if pos > a.target.length + a.maxDist then DeadState
  else pos * (a.maxDist + 1) + edits + 1

def LevenshteinAutomaton.decodeState (a : LevenshteinAutomaton) (s : ℕ) : ℕ × ℕ :=
  ((s - 1) / (a.maxDist + 1), (s - 1) % (a.maxDist + 1))

/-- `bestState`: among the candidate states, skip `DeadState` and keep
the one whose decoded position is furthest into the target (first wins
ties, matching the Go loop's strict `>` comparison). -/
def LevenshteinAutomaton.bestState (a : LevenshteinAutomaton) : List ℕ → ℕ × ℤ → ℕ
  | [], acc => acc.1
  | s :: rest, acc =>
    if s = DeadState then a.bestState rest acc
    else
      let pos := (a.decodeState s).1
      if (pos : ℤ) > acc.2 then a.bestState rest (s, pos)
      else a.bestState rest acc

def LevenshteinAutomaton.Start (a : LevenshteinAutomaton) : ℕ := a.encodeState 0 0

/-- `LevenshteinAutomaton.Step`: greedy single-state transition.  On a
mismatch it considers substitution, insertion, and (when the byte matches
the *next* target byte) deletion-then-match, and keeps only the candidate
that advances furthest. -/
def LevenshteinAutomaton.Step (a : LevenshteinAutomaton) (state : ℕ) (b : ℕ) : ℕ :=
  if state = DeadState then DeadState
  else
    let pe := a.decodeState state
    let pos := pe.1
    let editsUsed := pe.2
    if pos ≥ a.target.length then
      let newEdits := editsUsed + 1
      if newEdits > a.maxDist then DeadState else a.encodeState pos newEdits
    else if b = a.target.getD pos 0 then a.encodeState (pos+1) editsUsed
    else if editsUsed ≥ a.maxDist then DeadState
    else
      let substState := a.encodeState (pos+1) (editsUsed+1)
      let insertState := a.encodeState pos (editsUsed+1)
      if pos + 1 < a.target.length ∧ b = a.target.getD (pos+1) 0 then
        let delMatchState := a.encodeState (pos+2) (editsUsed+1)
        a.bestState [substState, insertState, delMatchState] (DeadState, -1)
      else a.bestState [substState, insertState, DeadState] (DeadState, -1)

/-- `LevenshteinAutomaton.IsAccept`: the remaining target suffix must fit
in the remaining edit budget (computed over `Int` as Go does). -/
def LevenshteinAutomaton.IsAccept (a : LevenshteinAutomaton) (state : ℕ) : Bool :=
  if state = DeadState then false
  else
    let pe := a.decodeState state
    ((a.target.length : ℤ) - pe.1) ≤ ((a.maxDist : ℤ) - pe.2)

/-- Run the automaton over an input (the Go test helper `runAutomaton`,
without the early exit — `DeadState` is absorbing, so the result agrees). -/
def LevenshteinAutomaton.accepts (a : LevenshteinAutomaton) (input : List ℕ) : Bool :=
  a.IsAccept (input.foldl a.Step a.Start)

/-- Reference Levenshtein edit distance between two byte strings
(Mathlib's `levenshtein` with unit costs). -/
def levDistance (xs ys : List ℕ) : ℕ := levenshtein Levenshtein.defaultCost xs ys

/-- Claim C3 (code_bug): the input `"bb"` (bytes `[98, 98]`) is at
Levenshtein distance 1 from the target `"ab"` (bytes `[97, 98]`), yet the
automaton built by `NewLevenshteinAutomaton("ab", 1)` rejects it: on the
first byte the greedy transition commits to the deletion-then-match state
(position 2) instead of the substitution path, and the second byte then
exhausts the edit budget.  This contradicts the automaton's own contract
("accepts strings within edit distance ≤ maxDist of the target"). -/
theorem C3_code_bug :
    levDistance [97, 98] [98, 98] = 1 ∧
      NewLevenshteinAutomaton [97, 98] 1 =
        some { target := [97, 98], maxDist := 1 } ∧
      LevenshteinAutomaton.accepts { target := [97, 98], maxDist := 1 } [98, 98] = false := by
  decide

/-! ### `engine.SlicePostingsIterator` (src/internal/query/query.go
concatenation, engine package)

`pos` is a Go `int` starting at −1, so it is modelled as `Int`.  `DocID`
reads `docIDs[pos]`; Go would panic out of range, and the iterator
contract makes `DocID` meaningful only after a successful `Next` or
`Advance`, so out-of-range reads are given the junk value 0 (never used
by any theorem). -/

structure SlicePostingsIterator where
  docIDs : List ℕ
  freqs : List ℕ
  pos : ℤ
deriving DecidableEq, Repr

instance : Inhabited SlicePostingsIterator := ⟨⟨[], [], -1⟩⟩

def NewSlicePostingsIterator (docIDs freqs : List ℕ) : SlicePostingsIterator :=
  { docIDs := docIDs, freqs := freqs, pos := -1 }

def SlicePostingsIterator.Next (it : SlicePostingsIterator) :
    Bool × SlicePostingsIterator :=
  let it' := { it with pos := it.pos + 1 }
  (decide (it'.pos < (it'.docIDs.length : ℤ)), it')

def SlicePostingsIterator.DocID (it : SlicePostingsIterator) : ℕ :=
  it.docIDs.getD it.pos.toNat 0

/-- The `for it.pos+1 < len` search loop of `Advance`; returns the Go
function's boolean result together with the final `pos`.  `fuel` only
bounds the recursion; every call site passes `docIDs.length + 1`, which
the loop can never exhaust. -/
def sliceAdvanceLoop (docIDs : List ℕ) (target : ℕ) : ℕ → ℤ → Bool × ℤ
  | 0, _ => (false, (docIDs.length : ℤ))
  | fuel+1, pos =>
    if pos + 1 < (docIDs.length : ℤ) then
      let pos' := pos + 1
      if target ≤ docIDs.getD pos'.toNat 0 then (true, pos')
      else sliceAdvanceLoop docIDs target fuel pos'
    else (false, (docIDs.length : ℤ))

def SlicePostingsIterator.Advance (it : SlicePostingsIterator) (target : ℕ) :
    Bool × SlicePostingsIterator :=
  if 0 ≤ it.pos ∧ it.pos < (it.docIDs.length : ℤ) ∧ target ≤ it.DocID then (true, it)
  else
    let r := sliceAdvanceLoop it.docIDs target (it.docIDs.length + 1) it.pos
    (r.1, { it with pos := r.2 })

def SlicePostingsIterator.Cost (it : SlicePostingsIterator) : ℤ :=
  let remaining := (it.docIDs.length : ℤ) - it.pos - 1
  if remaining < 0 then 0 else remaining

/-! ### Cursor abstraction for slice iterators

`Tracks it l lo` says the iterator is backed by the doc-id list `l` and
its cursor is fresh (`lo = none`) or parked on the element `d`
(`lo = some d`).  `loLE`/`loLT` compare a cursor with a doc id. -/

def loLE : Option ℕ → ℕ → Prop
  | none, _ => True
  | some d, x => d ≤ x

def loLT : Option ℕ → ℕ → Prop
  | none, _ => True
  | some d, x => d < x

def Tracks (it : SlicePostingsIterator) (l : List ℕ) (lo : Option ℕ) : Prop :=
  it.docIDs = l ∧
    match lo with
    | none => it.pos = -1
    | some d => ∃ i : ℕ, it.pos = (i : ℤ) ∧ i < l.length ∧ l.getD i 0 = d

theorem Tracks.docID {it : SlicePostingsIterator} {l : List ℕ} {d : ℕ}
    (h : Tracks it l (some d)) : it.DocID = d := by
  obtain ⟨hl, i, hpos, hlen, hget⟩ := h
  unfold SlicePostingsIterator.DocID
  rw [hl, hpos]
  exact hget

theorem sorted_getD_lt {l : List ℕ} (hs : l.Pairwise (· < ·))
    {i j : ℕ} (hij : i < j) (hj : j < l.length) :
    l.getD i 0 < l.getD j 0 := by
  have hi : i < l.length := lt_trans hij hj
  rw [List.getD_eq_getD_get? l 0 i, List.getD_eq_getD_get? l 0 j,
    List.get?_eq_get hi, List.get?_eq_get hj]
  exact List.pairwise_iff_get.mp hs ⟨i, hi⟩ ⟨j, hj⟩ hij

theorem sorted_getD_le {l : List ℕ} (hs : l.Pairwise (· < ·))
    {i j : ℕ} (hij : i ≤ j) (hj : j < l.length) :
    l.getD i 0 ≤ l.getD j 0 := by
  rcases Nat.lt_or_ge i j with h | h
  · exact le_of_lt (sorted_getD_lt hs h hj)
  · have : i = j := le_antisymm hij h
    subst this
    exact le_refl _

theorem mem_iff_getD {l : List ℕ} {x : ℕ} :
    x ∈ l ↔ ∃ j : ℕ, j < l.length ∧ l.getD j 0 = x := by
  rw [List.mem_iff_get]
  constructor
  · rintro ⟨⟨j, hj⟩, hx⟩
    refine ⟨j, hj, ?_⟩
    rw [List.getD_eq_getD_get? l 0 j, List.get?_eq_get hj]
    exact hx
  · rintro ⟨j, hj, hx⟩
    refine ⟨⟨j, hj⟩, ?_⟩
    rw [List.getD_eq_getD_get? l 0 j, List.get?_eq_get hj] at hx
    exact hx

/-- First element of a sorted-strict list satisfying an arbitrary
predicate is its minimum. -/
theorem sorted_min_exists {l : List ℕ} (hs : l.Pairwise (· < ·)) (Q : ℕ → Prop)
    (hex : ∃ x ∈ l, Q x) :
    ∃ m, m ∈ l ∧ Q m ∧ ∀ x ∈ l, Q x → m ≤ x := by
  induction l with
  | nil => obtain ⟨x, hx, -⟩ := hex; simp at hx
  | cons a rest ih =>
    by_cases hQa : Q a
    · refine ⟨a, List.mem_cons_self a rest, hQa, ?_⟩
      intro x hx _
      rcases List.mem_cons.mp hx with rfl | hx'
      · exact le_refl _
      · exact le_of_lt (List.rel_of_pairwise_cons hs hx')
    · obtain ⟨x, hx, hQx⟩ := hex
      rcases List.mem_cons.mp hx with rfl | hx'
      · exact absurd hQx hQa
      · obtain ⟨m, hm, hQm, hmin⟩ := ih (List.Pairwise.of_cons hs) ⟨x, hx', hQx⟩
        refine ⟨m, List.mem_cons_of_mem a hm, hQm, ?_⟩
        intro y hy hQy
        rcases List.mem_cons.mp hy with rfl | hy'
        · exact absurd hQy hQa
        · exact hmin y hy' hQy

theorem next_spec_found {it : SlicePostingsIterator} {l : List ℕ} {lo : Option ℕ} {m : ℕ}
    (hs : l.Pairwise (· < ·)) (ht : Tracks it l lo)
    (hmem : m ∈ l) (hlt : loLT lo m) (hmin : ∀ x ∈ l, loLT lo x → m ≤ x) :
    (it.Next).1 = true ∧ Tracks (it.Next).2 l (some m) := by
  obtain ⟨hl, hcase⟩ := ht
  obtain ⟨jm, hjm, hgjm⟩ := mem_iff_getD.mp hmem
  cases lo with
  | none =>
    have hpos : it.pos = -1 := hcase
    have hlen : 0 < l.length := by omega
    constructor
    · simp only [SlicePostingsIterator.Next, hl, hpos]
      simp only [decide_eq_true_iff]
      omega
    · refine ⟨hl, 0, by simp only [SlicePostingsIterator.Next]; omega, hlen, ?_⟩
      have h1 : l.getD 0 0 ≤ m := hgjm ▸ sorted_getD_le hs (Nat.zero_le jm) hjm
      have h2 : m ≤ l.getD 0 0 :=
        hmin _ (mem_iff_getD.mpr ⟨0, hlen, rfl⟩) trivial
      omega
  | some d =>
    obtain ⟨i, hpos, hi, hgi⟩ := hcase
    have hdm : d < m := hlt
    have hjmi : i < jm := by
      by_contra hle
      have : l.getD jm 0 ≤ l.getD i 0 := sorted_getD_le hs (Nat.le_of_not_lt hle) hi
      omega
    have hlen2 : i + 1 < l.length := by omega
    constructor
    · simp only [SlicePostingsIterator.Next, hl, hpos]
      simp only [decide_eq_true_iff]
      omega
    · refine ⟨hl, i + 1, by simp only [SlicePostingsIterator.Next]; omega, hlen2, ?_⟩
      have h1 : l.getD (i+1) 0 ≤ m :=
        hgjm ▸ sorted_getD_le hs (Nat.succ_le_of_lt hjmi) hjm
      have h2 : d < l.getD (i+1) 0 := hgi ▸ sorted_getD_lt hs (Nat.lt_succ_self i) hlen2
      have h3 : m ≤ l.getD (i+1) 0 :=
        hmin _ (mem_iff_getD.mpr ⟨i+1, hlen2, rfl⟩) h2
      omega

theorem next_spec_none {it : SlicePostingsIterator} {l : List ℕ} {lo : Option ℕ}
    (hs : l.Pairwise (· < ·)) (ht : Tracks it l lo)
    (hnone : ∀ x ∈ l, ¬ loLT lo x) :
    (it.Next).1 = false := by
  obtain ⟨hl, hcase⟩ := ht
  cases lo with
  | none =>
    have hpos : it.pos = -1 := hcase
    cases hl' : l with
    | nil =>
      simp only [SlicePostingsIterator.Next, hl, hpos, hl']
      rfl
    | cons a rest =>
      exact absurd trivial (hnone a (hl' ▸ List.mem_cons_self a rest))
  | some d =>
    obtain ⟨i, hpos, hi, hgi⟩ := hcase
    have hend : ¬ (i + 1 < l.length) := by
      intro hlt2
      have hmem2 : l.getD (i+1) 0 ∈ l := mem_iff_getD.mpr ⟨i+1, hlt2, rfl⟩
      have : d < l.getD (i+1) 0 := hgi ▸ sorted_getD_lt hs (Nat.lt_succ_self i) hlt2
      exact hnone _ hmem2 this
    simp only [SlicePostingsIterator.Next, hl, hpos]
    simp only [decide_eq_false_iff_not]
    omega

theorem sliceAdvanceLoop_found {l : List ℕ} {t : ℕ} (hs : l.Pairwise (· < ·)) :
    ∀ (fuel : ℕ) (p : ℤ), -1 ≤ p → (l.length : ℤ) - p ≤ fuel →
    ∀ (j₀ : ℕ), p < (j₀ : ℤ) → j₀ < l.length → t ≤ l.getD j₀ 0 →
      (∀ j : ℕ, p < (j : ℤ) → j < l.length → t ≤ l.getD j 0 → j₀ ≤ j) →
    sliceAdvanceLoop l t fuel p = (true, (j₀ : ℤ)) := by
  intro fuel
  induction fuel with
  | zero =>
    intro p hp hfuel j₀ hpj hjlen hjt hjmin
    exact absurd hfuel (by push_cast; omega)
  | succ fuel ih =>
    intro p hp hfuel j₀ hpj hjlen hjt hjmin
    rw [sliceAdvanceLoop]
    have hwin : p + 1 < (l.length : ℤ) := by
      have : (j₀ : ℤ) < (l.length : ℤ) := by exact_mod_cast hjlen
      omega
    rw [if_pos hwin]
    have hq : ((p + 1).toNat : ℤ) = p + 1 := Int.toNat_of_nonneg (by omega)
    by_cases hcond : t ≤ l.getD (p + 1).toNat 0
    · rw [if_pos hcond]
      have hqlen : (p + 1).toNat < l.length := by omega
      have h1 : j₀ ≤ (p + 1).toNat := hjmin _ (by omega) hqlen hcond
      have h2 : (p + 1).toNat ≤ j₀ := by omega
      have : j₀ = (p + 1).toNat := le_antisymm h1 h2
      subst this
      rw [hq]
    · rw [if_neg hcond]
      refine ih (p + 1) (by omega) (by omega) j₀ ?_ hjlen hjt ?_
      · rcases Nat.lt_or_ge (p + 1).toNat j₀ with h | h
        · omega
        · exfalso
          have : j₀ = (p + 1).toNat := by omega
          exact hcond (this ▸ hjt)
      · intro j hj hjl hjt'
        exact hjmin j (by omega) hjl hjt'

theorem sliceAdvanceLoop_none {l : List ℕ} {t : ℕ} :
    ∀ (fuel : ℕ) (p : ℤ), -1 ≤ p →
    (∀ j : ℕ, p < (j : ℤ) → j < l.length → ¬ t ≤ l.getD j 0) →
    sliceAdvanceLoop l t fuel p = (false, (l.length : ℤ)) := by
  intro fuel
  induction fuel with
  | zero => intro p _ _; rfl
  | succ fuel ih =>
    intro p hp hnone
    rw [sliceAdvanceLoop]
    by_cases hwin : p + 1 < (l.length : ℤ)
    · rw [if_pos hwin]
      have hqlen : (p + 1).toNat < l.length := by omega
      have hcond : ¬ t ≤ l.getD (p + 1).toNat 0 := hnone _ (by omega) hqlen
      rw [if_neg hcond]
      exact ih (p + 1) (by omega) (fun j hj hjl => hnone j (by omega) hjl)
    · rw [if_neg hwin]

theorem adv_spec_found {it : SlicePostingsIterator} {l : List ℕ} {lo : Option ℕ} {t m : ℕ}
    (hs : l.Pairwise (· < ·)) (ht : Tracks it l lo)
    (hmem : m ∈ l) (hle : loLE lo m) (htm : t ≤ m)
    (hmin : ∀ x ∈ l, loLE lo x → t ≤ x → m ≤ x) :
    ((it.Advance t).1 = true ∧ Tracks (it.Advance t).2 l (some m)) := by
  obtain ⟨hl, hcase⟩ := ht
  obtain ⟨jm, hjm, hgjm⟩ := mem_iff_getD.mp hmem
  cases lo with
  | some d =>
    obtain ⟨i, hpos, hi, hgi⟩ := hcase
    have hdoc : it.DocID = d := Tracks.docID ⟨hl, i, hpos, hi, hgi⟩
    by_cases htd : t ≤ d
    · have hmd : m = d := by
        have h1 : m ≤ d := hmin d (mem_iff_getD.mpr ⟨i, hi, hgi⟩) (le_refl d) htd
        have h2 : d ≤ m := hle
        omega
      subst hmd
      have hcond : 0 ≤ it.pos ∧ it.pos < (it.docIDs.length : ℤ) ∧ t ≤ it.DocID := by
        refine ⟨by omega, by rw [hl]; omega, by rw [hdoc]; exact htd⟩
      rw [SlicePostingsIterator.Advance, if_pos hcond]
      exact ⟨rfl, hl, i, hpos, hi, hgi⟩
    · have hcond : ¬ (0 ≤ it.pos ∧ it.pos < (it.docIDs.length : ℤ) ∧ t ≤ it.DocID) := by
        rw [hdoc]
        intro hc
        exact htd hc.2.2
      rw [SlicePostingsIterator.Advance, if_neg hcond]
      have hjmi : i < jm := by
        by_contra hcon
        have : l.getD jm 0 ≤ l.getD i 0 := sorted_getD_le hs (Nat.le_of_not_lt hcon) hi
        omega
      have hloop := sliceAdvanceLoop_found (l := l) (t := t) hs (l.length + 1) it.pos
        (by omega) (by push_cast; omega) jm (by omega) hjm (hgjm ▸ htm) ?min
      case min =>
        intro j hj hjl hjt
        by_contra hcon
        have hjlt : j < jm := Nat.lt_of_not_le (fun hcc => hcon hcc)
        have hd : l.getD i 0 < l.getD j 0 := by
          apply sorted_getD_lt hs _ hjl
          omega
        have : m ≤ l.getD j 0 :=
          hmin _ (mem_iff_getD.mpr ⟨j, hjl, rfl⟩) (by rw [hgi] at hd; exact le_of_lt hd) hjt
        have : l.getD j 0 < l.getD jm 0 := sorted_getD_lt hs hjlt hjm
        omega
      rw [hl, hloop]
      exact ⟨rfl, rfl, jm, rfl, hjm, hgjm⟩
  | none =>
    have hpos : it.pos = -1 := hcase
    have hcond : ¬ (0 ≤ it.pos ∧ it.pos < (it.docIDs.length : ℤ) ∧ t ≤ it.DocID) := by
      rw [hpos]
      intro hc
      omega
    rw [SlicePostingsIterator.Advance, if_neg hcond]
    have hloop := sliceAdvanceLoop_found (l := l) (t := t) hs (l.length + 1) it.pos
      (by omega) (by push_cast; omega) jm (by omega) hjm (hgjm ▸ htm) ?min
    case min =>
      intro j hj hjl hjt
      by_contra hcon
      have hjlt : j < jm := Nat.lt_of_not_le (fun hcc => hcon hcc)
      have h1 : m ≤ l.getD j 0 := hmin _ (mem_iff_getD.mpr ⟨j, hjl, rfl⟩) trivial hjt
      have h2 : l.getD j 0 < l.getD jm 0 := sorted_getD_lt hs hjlt hjm
      omega
    rw [hl, hloop]
    exact ⟨rfl, rfl, jm, rfl, hjm, hgjm⟩

theorem adv_spec_none {it : SlicePostingsIterator} {l : List ℕ} {lo : Option ℕ} {t : ℕ}
    (hs : l.Pairwise (· < ·)) (ht : Tracks it l lo)
    (hnone : ∀ x ∈ l, loLE lo x → ¬ t ≤ x) :
    (it.Advance t).1 = false := by
  obtain ⟨hl, hcase⟩ := ht
  cases lo with
  | some d =>
    obtain ⟨i, hpos, hi, hgi⟩ := hcase
    have hdoc : it.DocID = d := Tracks.docID ⟨hl, i, hpos, hi, hgi⟩
    have hcond : ¬ (0 ≤ it.pos ∧ it.pos < (it.docIDs.length : ℤ) ∧ t ≤ it.DocID) := by
      rw [hdoc]
      intro hc
      exact hnone d (mem_iff_getD.mpr ⟨i, hi, hgi⟩) (le_refl d) hc.2.2
    rw [SlicePostingsIterator.Advance, if_neg hcond]
    have hloop := sliceAdvanceLoop_none (l := l) (t := t) (l.length + 1) it.pos (by omega) ?none
    case none =>
      intro j hj hjl
      refine hnone _ (mem_iff_getD.mpr ⟨j, hjl, rfl⟩) ?_
      show d ≤ l.getD j 0
      have : l.getD i 0 ≤ l.getD j 0 := by
        apply sorted_getD_le hs _ hjl
        omega
      omega
    rw [hl, hloop]
  | none =>
    have hpos : it.pos = -1 := hcase
    have hcond : ¬ (0 ≤ it.pos ∧ it.pos < (it.docIDs.length : ℤ) ∧ t ≤ it.DocID) := by
      rw [hpos]
      intro hc
      omega
    rw [SlicePostingsIterator.Advance, if_neg hcond]
    have hloop := sliceAdvanceLoop_none (l := l) (t := t) (l.length + 1) it.pos (by omega) ?none
    case none =>
      intro j hj hjl
      exact hnone _ (mem_iff_getD.mpr ⟨j, hjl, rfl⟩) trivial
    rw [hl, hloop]

/-! ### `engine.ConjunctionIterator` (src/internal/query/query.go
concatenation, engine package)

`NewConjunctionIterator` sorts the children by ascending cost
(`sort.Slice`, modelled by insertion sort — every theorem below holds
for any cost-ascending permutation) and the cheapest child leads.
`align` is the nested loop: a pass advances every non-lead child to the
current target; a child landing past the target bumps the target,
re-advances the lead and restarts the pass.  The pass is `alignPass`;
the restart loop is `alignGo`, with fuel that the callers size so it can
never run out (each restart strictly advances the lead). -/

def insertByCost (x : SlicePostingsIterator) :
    List SlicePostingsIterator → List SlicePostingsIterator
  | [] => [x]
  | y :: ys => if x.Cost < y.Cost then x :: y :: ys else y :: insertByCost x ys

def sortByCost : List SlicePostingsIterator → List SlicePostingsIterator
  | [] => []
  | x :: xs => insertByCost x (sortByCost xs)

structure ConjunctionIterator where
  lead : SlicePostingsIterator
  others : List SlicePostingsIterator
  current : ℕ
deriving DecidableEq, Repr

def NewConjunctionIterator (children : List SlicePostingsIterator) : ConjunctionIterator :=
  let sorted := sortByCost children
  { lead := sorted.headD default, others := sorted.tail, current := 0 }

inductive AlignPassResult where
  | exhausted (os : List SlicePostingsIterator)
  | aligned (os : List SlicePostingsIterator)
  | bump (os : List SlicePostingsIterator) (newTarget : ℕ)
deriving DecidableEq, Repr

def alignPass (t : ℕ) : List SlicePostingsIterator → AlignPassResult
  | [] => .aligned []
  | o :: os =>
    let r := o.Advance t
    if r.1 = false then .exhausted (r.2 :: os)
    else if r.2.DocID > t then .bump (r.2 :: os) r.2.DocID
    else
      match alignPass t os with
      | .exhausted os' => .exhausted (r.2 :: os')
      | .aligned os' => .aligned (r.2 :: os')
      | .bump os' t' => .bump (r.2 :: os') t'

def alignGo : ℕ → SlicePostingsIterator → List SlicePostingsIterator → ℕ →
    Bool × SlicePostingsIterator × List SlicePostingsIterator × ℕ
  | 0, lead, others, target => (false, lead, others, target)
  | fuel+1, lead, others, target =>
    match alignPass target others with
    | .exhausted os' => (false, lead, os', target)
    | .aligned os' => (true, lead, os', target)
    | .bump os' t' =>
      let r := lead.Advance t'
      if r.1 = false then (false, r.2, os', target)
      else alignGo fuel r.2 os' r.2.DocID

def ConjunctionIterator.Next (c : ConjunctionIterator) : Bool × ConjunctionIterator :=
  let r := c.lead.Next
  if r.1 = false then (false, { c with lead := r.2 })
  else
    let a := alignGo (c.lead.docIDs.length + 2) r.2 c.others r.2.DocID
    if a.1 then (true, { lead := a.2.1, others := a.2.2.1, current := a.2.2.2 })
    else (false, { c with lead := a.2.1, others := a.2.2.1 })

def ConjunctionIterator.Advance (c : ConjunctionIterator) (target : ℕ) :
    Bool × ConjunctionIterator :=
  let r := c.lead.Advance target
  if r.1 = false then (false, { c with lead := r.2 })
  else
    let a := alignGo (c.lead.docIDs.length + 2) r.2 c.others r.2.DocID
    if a.1 then (true, { lead := a.2.1, others := a.2.2.1, current := a.2.2.2 })
    else (false, { c with lead := a.2.1, others := a.2.2.1 })

def ConjunctionIterator.DocID (c : ConjunctionIterator) : ℕ := c.current

def conjEmitGo : ℕ → ConjunctionIterator → List ℕ
  | 0, _ => []
  | fuel+1, c =>
    let r := c.Next
    if r.1 then r.2.DocID :: conjEmitGo fuel r.2 else []

/-- Doc ids produced by repeatedly calling `Next` until it fails. -/
def conjEmit (c : ConjunctionIterator) (fuel : ℕ) : List ℕ := conjEmitGo fuel c

/-- Ascending intersection of the doc-id sets: the first list filtered
to the elements present in every other list. -/
def sortedInter : List (List ℕ) → List ℕ
  | [] => []
  | l₀ :: rest => l₀.filter (fun x => rest.all (fun l => decide (x ∈ l)))

theorem loLE_of_le {lo : Option ℕ} {t x : ℕ} (h : loLE lo t) (hx : t ≤ x) : loLE lo x := by
  cases lo with
  | none => trivial
  | some d => exact le_trans h hx

theorem loLT_of_le {lo : Option ℕ} {t x : ℕ} (h : loLT lo t) (hx : t ≤ x) : loLT lo x := by
  cases lo with
  | none => trivial
  | some d => exact lt_of_lt_of_le h hx

theorem loLE_of_loLT {lo : Option ℕ} {t : ℕ} (h : loLT lo t) : loLE lo t := by
  cases lo with
  | none => trivial
  | some d => exact le_of_lt h

/-- One pass of `align` over the non-lead children: either every child
advances to exactly the target (`aligned`), or some child lands past it
(`bump`, with the new target bounding every common element), or some
child exhausts (`exhausted`, so no common element `≥ target` exists). -/
theorem alignPass_spec (t : ℕ) (os : List SlicePostingsIterator)
    (specs : List (List ℕ × Option ℕ))
    (hrel : List.Forall₂
      (fun o s => Tracks o s.1 s.2 ∧ s.1.Pairwise (· < ·) ∧ loLE s.2 t) os specs) :
    (∀ os', alignPass t os = .aligned os' →
      List.Forall₂ (fun o s => Tracks o s.1 (some t)) os' specs ∧ (∀ s ∈ specs, t ∈ s.1)) ∧
    (∀ os' t', alignPass t os = .bump os' t' →
      t < t' ∧ (∀ x, t ≤ x → (∀ s ∈ specs, x ∈ s.1) → t' ≤ x) ∧
      ∃ specs', specs'.map Prod.fst = specs.map Prod.fst ∧
        List.Forall₂
          (fun o s => Tracks o s.1 s.2 ∧ s.1.Pairwise (· < ·) ∧ loLE s.2 t') os' specs') ∧
    (∀ os', alignPass t os = .exhausted os' →
      ∀ x, t ≤ x → ¬ (∀ s ∈ specs, x ∈ s.1)) := by
  induction hrel with
  | nil =>
    refine ⟨?_, ?_, ?_⟩
    · intro os' h
      simp only [alignPass] at h
      cases h
      exact ⟨List.Forall₂.nil, by simp⟩
    · intro os' t' h
      simp only [alignPass] at h
      exact absurd h (by simp)
    · intro os' h
      simp only [alignPass] at h
      exact absurd h (by simp)
  | @cons o s os specs hhead hrel_tail ih =>
    obtain ⟨htr, hsort, hloe⟩ := hhead
    obtain ⟨ihA, ihB, ihC⟩ := ih
    by_cases hex : ∃ x ∈ s.1, loLE s.2 x ∧ t ≤ x
    · obtain ⟨m, hmem, ⟨hmle, hmt⟩, hmin⟩ :=
        sorted_min_exists hsort (fun x => loLE s.2 x ∧ t ≤ x) hex
      have hadv := adv_spec_found hsort htr hmem hmle hmt
        (fun x hx h1 h2 => hmin x hx ⟨h1, h2⟩)
      have hdoc : ((o.Advance t).2).DocID = m := Tracks.docID hadv.2
      rcases Nat.lt_or_ge t m with hbump | hml
      · -- the head child lands past the target: bump
        have heq : alignPass t (o :: os) = .bump ((o.Advance t).2 :: os) m := by
          simp [alignPass, hadv.1, hdoc, hbump]
        refine ⟨?_, ?_, ?_⟩
        · intro os' h
          rw [heq] at h
          exact absurd h (by simp)
        · intro os' t' h
          rw [heq] at h
          simp only [AlignPassResult.bump.injEq] at h
          obtain ⟨hos, ht'⟩ := h
          subst hos; subst ht'
          refine ⟨hbump, ?_, (s.1, some m) :: specs, by simp, ?_⟩
          · intro x hx hall
            exact hmin x (hall s (List.mem_cons_self s specs))
              ⟨loLE_of_le hloe hx, hx⟩
          · refine List.Forall₂.cons ⟨hadv.2, hsort, le_refl m⟩ ?_
            exact List.Forall₂.imp
              (fun a b hps => ⟨hps.1, hps.2.1, loLE_of_le hps.2.2 (le_of_lt hbump)⟩)
              hrel_tail
        · intro os' h
          rw [heq] at h
          exact absurd h (by simp)
      · -- the head child lands exactly on the target: continue the pass
        have hmeq : m = t := le_antisymm hml hmt
        have hdoc2 : ((o.Advance t).2).DocID = t := by rw [hdoc, hmeq]
        have hmemt : t ∈ s.1 := hmeq ▸ hmem
        have htr2 : Tracks (o.Advance t).2 s.1 (some t) := hmeq ▸ hadv.2
        refine ⟨?_, ?_, ?_⟩
        · intro os' h
          cases hpass : alignPass t os with
          | exhausted os₀ =>
            have heq : alignPass t (o :: os) = .exhausted ((o.Advance t).2 :: os₀) := by
              simp [alignPass, hadv.1, hdoc2, hpass]
            rw [heq] at h
            exact absurd h (by simp)
          | aligned os₀ =>
            have heq : alignPass t (o :: os) = .aligned ((o.Advance t).2 :: os₀) := by
              simp [alignPass, hadv.1, hdoc2, hpass]
            rw [heq] at h
            simp only [AlignPassResult.aligned.injEq] at h
            subst h
            obtain ⟨hfa, hin⟩ := ihA os₀ hpass
            refine ⟨List.Forall₂.cons htr2 hfa, ?_⟩
            intro s' hs'
            rcases List.mem_cons.mp hs' with rfl | hs''
            · exact hmemt
            · exact hin s' hs''
          | bump os₀ t₀ =>
            have heq : alignPass t (o :: os) = .bump ((o.Advance t).2 :: os₀) t₀ := by
              simp [alignPass, hadv.1, hdoc2, hpass]
            rw [heq] at h
            exact absurd h (by simp)
        · intro os' t' h
          cases hpass : alignPass t os with
          | exhausted os₀ =>
            have heq : alignPass t (o :: os) = .exhausted ((o.Advance t).2 :: os₀) := by
              simp [alignPass, hadv.1, hdoc2, hpass]
            rw [heq] at h
            exact absurd h (by simp)
          | aligned os₀ =>
            have heq : alignPass t (o :: os) = .aligned ((o.Advance t).2 :: os₀) := by
              simp [alignPass, hadv.1, hdoc2, hpass]
            rw [heq] at h
            exact absurd h (by simp)
          | bump os₀ t₀ =>
            have heq : alignPass t (o :: os) = .bump ((o.Advance t).2 :: os₀) t₀ := by
              simp [alignPass, hadv.1, hdoc2, hpass]
            rw [heq] at h
            simp only [AlignPassResult.bump.injEq] at h
            obtain ⟨hos, ht'⟩ := h
            subst hos; subst ht'
            obtain ⟨hlt₀, himp₀, specs₀, hfst₀, hfa₀⟩ := ihB os₀ t₀ hpass
            refine ⟨hlt₀, ?_, (s.1, some t) :: specs₀, by simp [hfst₀], ?_⟩
            · intro x hx hall
              exact himp₀ x hx (fun s' hs' => hall s' (List.mem_cons_of_mem s hs'))
            · exact List.Forall₂.cons ⟨htr2, hsort, le_of_lt hlt₀⟩ hfa₀
        · intro os' h
          cases hpass : alignPass t os with
          | exhausted os₀ =>
            intro x hx hall
            exact ihC os₀ hpass x hx (fun s' hs' => hall s' (List.mem_cons_of_mem s hs'))
          | aligned os₀ =>
            have heq : alignPass t (o :: os) = .aligned ((o.Advance t).2 :: os₀) := by
              simp [alignPass, hadv.1, hdoc2, hpass]
            rw [heq] at h
            exact absurd h (by simp)
          | bump os₀ t₀ =>
            have heq : alignPass t (o :: os) = .bump ((o.Advance t).2 :: os₀) t₀ := by
              simp [alignPass, hadv.1, hdoc2, hpass]
            rw [heq] at h
            exact absurd h (by simp)
    · -- the head child has no reachable element ≥ target: exhausted
      have hadv : (o.Advance t).1 = false :=
        adv_spec_none hsort htr (fun x hx h1 h2 => hex ⟨x, hx, h1, h2⟩)
      have heq : alignPass t (o :: os) = .exhausted ((o.Advance t).2 :: os) := by
        simp [alignPass, hadv]
      refine ⟨?_, ?_, ?_⟩
      · intro os' h
        rw [heq] at h
        exact absurd h (by simp)
      · intro os' t' h
        rw [heq] at h
        exact absurd h (by simp)
      · intro os' h
        intro x hx hall
        exact hex ⟨x, hall s (List.mem_cons_self s specs),
          loLE_of_le hloe hx, hx⟩

theorem forall₂_fst_transfer {Q : SlicePostingsIterator → List ℕ → Prop}
    {os : List SlicePostingsIterator} {specs specs' : List (List ℕ × Option ℕ)}
    (hfst : specs'.map Prod.fst = specs.map Prod.fst)
    (h : List.Forall₂ (fun o s => Q o s.1) os specs') :
    List.Forall₂ (fun o s => Q o s.1) os specs := by
  induction h generalizing specs with
  | nil =>
    cases specs with
    | nil => exact List.Forall₂.nil
    | cons sp specs2 => simp at hfst
  | @cons a b os' specs2' hh htail ih =>
    cases specs with
    | nil => simp at hfst
    | cons sp specs2 =>
      simp only [List.map_cons, List.cons.injEq] at hfst
      exact List.Forall₂.cons (hfst.1 ▸ hh) (ih hfst.2)

theorem forall_mem_fst {specs specs' : List (List ℕ × Option ℕ)} {x : ℕ}
    (hfst : specs'.map Prod.fst = specs.map Prod.fst) :
    (∀ s ∈ specs', x ∈ s.1) ↔ (∀ s ∈ specs, x ∈ s.1) := by
  have h1 : ∀ (sp : List (List ℕ × Option ℕ)),
      (∀ s ∈ sp, x ∈ s.1) ↔ (∀ l ∈ sp.map Prod.fst, x ∈ l) := by
    intro sp
    constructor
    · intro h l hl
      obtain ⟨s, hs, rfl⟩ := List.mem_map.mp hl
      exact h s hs
    · intro h s hs
      exact h s.1 (List.mem_map_of_mem Prod.fst hs)
  rw [h1 specs', h1 specs, hfst]

theorem alignGo_found {L : List ℕ} (hsL : L.Pairwise (· < ·)) :
    ∀ (fuel i : ℕ) (lead : SlicePostingsIterator)
      (others : List SlicePostingsIterator) (specs : List (List ℕ × Option ℕ)) (t m : ℕ),
      L.length - i ≤ fuel →
      lead.docIDs = L → lead.pos = (i : ℤ) → i < L.length → L.getD i 0 = t →
      List.Forall₂ (fun o s => Tracks o s.1 s.2 ∧ s.1.Pairwise (· < ·) ∧ loLE s.2 t)
        others specs →
      t ≤ m → m ∈ L → (∀ s ∈ specs, m ∈ s.1) →
      (∀ x, t ≤ x → x ∈ L → (∀ s ∈ specs, x ∈ s.1) → m ≤ x) →
      (alignGo fuel lead others t).1 = true ∧
        (alignGo fuel lead others t).2.2.2 = m ∧
        Tracks (alignGo fuel lead others t).2.1 L (some m) ∧
        List.Forall₂ (fun o s => Tracks o s.1 (some m))
          (alignGo fuel lead others t).2.2.1 specs := by
  intro fuel
  induction fuel with
  | zero =>
    intro i lead others specs t m hfuel hl hpos hi hget hrel htm hmL hmall hminx
    exact absurd hi (by omega)
  | succ fuel ih =>
    intro i lead others specs t m hfuel hl hpos hi hget hrel htm hmL hmall hminx
    have pass := alignPass_spec t others specs hrel
    cases hpass : alignPass t others with
    | aligned os' =>
      obtain ⟨hfa, hin⟩ := pass.1 os' hpass
      have hmeq : m = t :=
        le_antisymm (hminx t (le_refl t) (mem_iff_getD.mpr ⟨i, hi, hget⟩) hin) htm
      subst hmeq
      have heq : alignGo (fuel+1) lead others m = (true, lead, os', m) := by
        simp [alignGo, hpass]
      rw [heq]
      exact ⟨rfl, rfl, ⟨hl, i, hpos, hi, hget⟩, hfa⟩
    | bump os' t' =>
      obtain ⟨hlt', himp, specs', hfst, hfa'⟩ := pass.2.1 os' t' hpass
      have htm' : t' ≤ m := himp m htm hmall
      obtain ⟨mL, hmLmem, ⟨hmLlo, hmLt'⟩, hmLmin⟩ :=
        sorted_min_exists hsL (fun x => loLE (some t) x ∧ t' ≤ x)
          ⟨m, hmL, htm, htm'⟩
      have hadv := adv_spec_found hsL
        (show Tracks lead L (some t) from ⟨hl, i, hpos, hi, hget⟩) hmLmem hmLlo hmLt'
        (fun x hx h1 h2 => hmLmin x hx ⟨h1, h2⟩)
      have hdoc : ((lead.Advance t').2).DocID = mL := Tracks.docID hadv.2
      obtain ⟨hl2, i₂, hpos₂, hi₂, hget₂⟩ := hadv.2
      have hii : i < i₂ := by
        by_contra hcon
        have : L.getD i₂ 0 ≤ L.getD i 0 := sorted_getD_le hsL (Nat.le_of_not_lt hcon) hi
        omega
      have hmLm : mL ≤ m := hmLmin m hmL ⟨htm, htm'⟩
      have hrec := ih i₂ (lead.Advance t').2 os' specs' mL m (by omega) hl2 hpos₂ hi₂ hget₂
        (List.Forall₂.imp
          (fun a b hps => ⟨hps.1, hps.2.1, loLE_of_le hps.2.2 hmLt'⟩) hfa')
        hmLm hmL ((forall_mem_fst hfst).mpr hmall)
        (fun x hx hxL hxall =>
          hminx x (by omega) hxL ((forall_mem_fst hfst).mp hxall))
      simp only [alignGo, hpass, hadv.1, hdoc]
      simp only [Bool.true_eq_false, if_false]
      exact ⟨hrec.1, hrec.2.1, hrec.2.2.1,
        forall₂_fst_transfer (Q := fun o l => Tracks o l (some m)) hfst hrec.2.2.2⟩
    | exhausted os' =>
      exact absurd hmall (pass.2.2 os' hpass m htm)

theorem alignGo_none {L : List ℕ} (hsL : L.Pairwise (· < ·)) :
    ∀ (fuel i : ℕ) (lead : SlicePostingsIterator)
      (others : List SlicePostingsIterator) (specs : List (List ℕ × Option ℕ)) (t : ℕ),
      L.length - i ≤ fuel →
      lead.docIDs = L → lead.pos = (i : ℤ) → i < L.length → L.getD i 0 = t →
      List.Forall₂ (fun o s => Tracks o s.1 s.2 ∧ s.1.Pairwise (· < ·) ∧ loLE s.2 t)
        others specs →
      (∀ x, t ≤ x → x ∈ L → ¬ (∀ s ∈ specs, x ∈ s.1)) →
      (alignGo fuel lead others t).1 = false := by
  intro fuel
  induction fuel with
  | zero =>
    intro i lead others specs t hfuel hl hpos hi hget hrel hnone
    exact absurd hi (by omega)
  | succ fuel ih =>
    intro i lead others specs t hfuel hl hpos hi hget hrel hnone
    have pass := alignPass_spec t others specs hrel
    cases hpass : alignPass t others with
    | aligned os' =>
      obtain ⟨-, hin⟩ := pass.1 os' hpass
      exact absurd hin (hnone t (le_refl t) (mem_iff_getD.mpr ⟨i, hi, hget⟩))
    | bump os' t' =>
      obtain ⟨hlt', himp, specs', hfst, hfa'⟩ := pass.2.1 os' t' hpass
      by_cases hex : ∃ x ∈ L, loLE (some t) x ∧ t' ≤ x
      · obtain ⟨mL, hmLmem, ⟨hmLlo, hmLt'⟩, hmLmin⟩ :=
          sorted_min_exists hsL (fun x => loLE (some t) x ∧ t' ≤ x) hex
        have hadv := adv_spec_found hsL
          (show Tracks lead L (some t) from ⟨hl, i, hpos, hi, hget⟩) hmLmem hmLlo hmLt'
          (fun x hx h1 h2 => hmLmin x hx ⟨h1, h2⟩)
        have hdoc : ((lead.Advance t').2).DocID = mL := Tracks.docID hadv.2
        obtain ⟨hl2, i₂, hpos₂, hi₂, hget₂⟩ := hadv.2
        have hii : i < i₂ := by
          by_contra hcon
          have : L.getD i₂ 0 ≤ L.getD i 0 := sorted_getD_le hsL (Nat.le_of_not_lt hcon) hi
          omega
        have hrec := ih i₂ (lead.Advance t').2 os' specs' mL (by omega) hl2 hpos₂ hi₂ hget₂
          (List.Forall₂.imp
            (fun a b hps => ⟨hps.1, hps.2.1, loLE_of_le hps.2.2 hmLt'⟩) hfa')
          (fun x hx hxL hxall =>
            hnone x (by omega) hxL ((forall_mem_fst hfst).mp hxall))
        simp only [alignGo, hpass, hadv.1, hdoc]
        simp only [Bool.true_eq_false, if_false]
        exact hrec
      · have hadv : (lead.Advance t').1 = false :=
          adv_spec_none hsL
            (show Tracks lead L (some t) from ⟨hl, i, hpos, hi, hget⟩)
            (fun x hx h1 h2 => hex ⟨x, hx, h1, h2⟩)
        simp only [alignGo, hpass, hadv]
        simp
    | exhausted os' =>
      simp only [alignGo, hpass]

/-- Common doc ids: present in the lead's list and in every other list. -/
def ConjCommon (L : List ℕ) (sls : List (List ℕ)) (x : ℕ) : Prop :=
  x ∈ L ∧ ∀ l ∈ sls, x ∈ l

/-- All iterators of the conjunction are parked on the same cursor. -/
def ConjSync (c : ConjunctionIterator) (L : List ℕ) (sls : List (List ℕ))
    (lo : Option ℕ) : Prop :=
  Tracks c.lead L lo ∧ List.Forall₂ (fun o l => Tracks o l lo) c.others sls

theorem forall₂_and_right {R : SlicePostingsIterator → List ℕ → Prop} {P : List ℕ → Prop}
    {os : List SlicePostingsIterator} {ls : List (List ℕ)}
    (h : List.Forall₂ R os ls) (hP : ∀ l ∈ ls, P l) :
    List.Forall₂ (fun o l => R o l ∧ P l) os ls := by
  induction h with
  | nil => exact List.Forall₂.nil
  | @cons a b os' ls' hh htail ih =>
    exact List.Forall₂.cons ⟨hh, hP b (List.mem_cons_self b ls')⟩
      (ih (fun l hl => hP l (List.mem_cons_of_mem b hl)))

theorem conjNext_found {L : List ℕ} {sls : List (List ℕ)} {lo : Option ℕ}
    {c : ConjunctionIterator} {m : ℕ}
    (hsL : L.Pairwise (· < ·)) (hsls : ∀ l ∈ sls, l.Pairwise (· < ·))
    (hsync : ConjSync c L sls lo)
    (hcm : ConjCommon L sls m) (hlt : loLT lo m)
    (hmin : ∀ x, ConjCommon L sls x → loLT lo x → m ≤ x) :
    (c.Next).1 = true ∧ (c.Next).2.DocID = m ∧ ConjSync (c.Next).2 L sls (some m) := by
  obtain ⟨htl, hto⟩ := hsync
  have hlL : c.lead.docIDs = L := htl.1
  obtain ⟨t₀, ht₀mem, ht₀lt, ht₀min⟩ :=
    sorted_min_exists hsL (loLT lo) ⟨m, hcm.1, hlt⟩
  have hnext := next_spec_found hsL htl ht₀mem ht₀lt ht₀min
  have htr₀ := hnext.2
  have hdoc₀ : (c.lead.Next).2.DocID = t₀ := Tracks.docID htr₀
  obtain ⟨hl1, i₀, hpos₀, hi₀, hget₀⟩ := htr₀
  have ht₀m : t₀ ≤ m := ht₀min m hcm.1 hlt
  have hrel : List.Forall₂
      (fun o s => Tracks o s.1 s.2 ∧ s.1.Pairwise (· < ·) ∧ loLE s.2 t₀)
      c.others (sls.map (fun l => (l, lo))) := by
    rw [List.forall₂_map_right_iff]
    exact List.Forall₂.imp
      (fun a b hab => ⟨hab.1, hab.2, loLE_of_loLT ht₀lt⟩)
      (forall₂_and_right hto hsls)
  have hmall : ∀ s ∈ sls.map (fun l => (l, lo)), m ∈ s.1 := by
    intro s hs
    obtain ⟨l, hl, rfl⟩ := List.mem_map.mp hs
    exact hcm.2 l hl
  have halign := alignGo_found hsL (c.lead.docIDs.length + 2) i₀ (c.lead.Next).2
    c.others (sls.map (fun l => (l, lo))) t₀ m
    (by rw [hlL]; omega) hl1 hpos₀ hi₀ hget₀ hrel ht₀m hcm.1 hmall
    (fun x hx hxL hxall => by
      refine hmin x ⟨hxL, ?_⟩ (loLT_of_le ht₀lt hx)
      intro l hl
      exact hxall (l, lo) (List.mem_map_of_mem _ hl))
  have hfa : List.Forall₂ (fun o l => Tracks o l (some m))
      (alignGo (c.lead.docIDs.length + 2) (c.lead.Next).2 c.others t₀).2.2.1 sls :=
    List.forall₂_map_right_iff.mp halign.2.2.2
  have heqN : c.Next =
      (true, { lead := (alignGo (c.lead.docIDs.length + 2) (c.lead.Next).2 c.others t₀).2.1,
               others := (alignGo (c.lead.docIDs.length + 2) (c.lead.Next).2 c.others t₀).2.2.1,
               current := (alignGo (c.lead.docIDs.length + 2) (c.lead.Next).2 c.others t₀).2.2.2 }) := by
    simp [ConjunctionIterator.Next, hnext.1, hdoc₀, halign.1]
  rw [heqN]
  exact ⟨rfl, halign.2.1, halign.2.2.1, hfa⟩

theorem conjNext_none {L : List ℕ} {sls : List (List ℕ)} {lo : Option ℕ}
    {c : ConjunctionIterator}
    (hsL : L.Pairwise (· < ·)) (hsls : ∀ l ∈ sls, l.Pairwise (· < ·))
    (hsync : ConjSync c L sls lo)
    (hnone : ∀ x, ConjCommon L sls x → ¬ loLT lo x) :
    (c.Next).1 = false := by
  obtain ⟨htl, hto⟩ := hsync
  have hlL : c.lead.docIDs = L := htl.1
  by_cases hexL : ∃ x ∈ L, loLT lo x
  · obtain ⟨t₀, ht₀mem, ht₀lt, ht₀min⟩ := sorted_min_exists hsL (loLT lo) hexL
    have hnext := next_spec_found hsL htl ht₀mem ht₀lt ht₀min
    have htr₀ := hnext.2
    have hdoc₀ : (c.lead.Next).2.DocID = t₀ := Tracks.docID htr₀
    obtain ⟨hl1, i₀, hpos₀, hi₀, hget₀⟩ := htr₀
    have hrel : List.Forall₂
        (fun o s => Tracks o s.1 s.2 ∧ s.1.Pairwise (· < ·) ∧ loLE s.2 t₀)
        c.others (sls.map (fun l => (l, lo))) := by
      rw [List.forall₂_map_right_iff]
      exact List.Forall₂.imp
        (fun a b hab => ⟨hab.1, hab.2, loLE_of_loLT ht₀lt⟩)
        (forall₂_and_right hto hsls)
    have halign := alignGo_none hsL (c.lead.docIDs.length + 2) i₀ (c.lead.Next).2
      c.others (sls.map (fun l => (l, lo))) t₀
      (by rw [hlL]; omega) hl1 hpos₀ hi₀ hget₀ hrel
      (fun x hx hxL hxall => by
        refine hnone x ⟨hxL, ?_⟩ (loLT_of_le ht₀lt hx)
        intro l hl
        exact hxall (l, lo) (List.mem_map_of_mem _ hl))
    simp only [ConjunctionIterator.Next, hnext.1, hdoc₀]
    simp only [Bool.true_eq_false, if_false, halign]
    simp
  · have hnext : (c.lead.Next).1 = false :=
      next_spec_none hsL htl (fun x hx hxlt => hexL ⟨x, hx, hxlt⟩)
    simp only [ConjunctionIterator.Next, hnext]
    simp

theorem sorted_strict_ext {l₁ l₂ : List ℕ}
    (h₁ : l₁.Pairwise (· < ·)) (h₂ : l₂.Pairwise (· < ·))
    (hm : ∀ x, x ∈ l₁ ↔ x ∈ l₂) : l₁ = l₂ := by
  haveI : IsAntisymm ℕ (· < ·) := ⟨fun a b h1 h2 => by omega⟩
  exact List.eq_of_perm_of_sorted
    ((List.perm_ext_iff_of_nodup h₁.nodup h₂.nodup).mpr hm) h₁ h₂

/-- Emission of the conjunction iterator from a synchronized state: the
emitted doc ids are exactly the common doc ids strictly above the
cursor, in ascending order. -/
theorem conjEmitGo_spec {L : List ℕ} {sls : List (List ℕ)}
    (hsL : L.Pairwise (· < ·)) (hsls : ∀ l ∈ sls, l.Pairwise (· < ·)) :
    ∀ (fuel n : ℕ) (c : ConjunctionIterator) (lo : Option ℕ),
      ConjSync c L sls lo →
      ((lo = none ∧ n = 0) ∨ (∃ d, lo = some d ∧ c.lead.pos + 1 = (n : ℤ))) →
      L.length + 1 - n ≤ fuel →
      (conjEmitGo fuel c).Pairwise (· < ·) ∧
        (∀ x, x ∈ conjEmitGo fuel c ↔ (ConjCommon L sls x ∧ loLT lo x)) := by
  intro fuel
  induction fuel with
  | zero =>
    intro n c lo hsync hidx hfuel
    exfalso
    rcases hidx with ⟨-, rfl⟩ | ⟨d, hlo, hpos⟩
    · omega
    · obtain ⟨-, i, hpos', hi, -⟩ := hlo ▸ hsync.1
      rw [hpos'] at hpos
      omega
  | succ fuel ih =>
    intro n c lo hsync hidx hfuel
    by_cases hex : ∃ x ∈ L, (∀ l ∈ sls, x ∈ l) ∧ loLT lo x
    · obtain ⟨m, hmL, ⟨hmall, hmlt⟩, hmmin⟩ :=
        sorted_min_exists hsL (fun x => (∀ l ∈ sls, x ∈ l) ∧ loLT lo x) hex
      have hmin' : ∀ x, ConjCommon L sls x → loLT lo x → m ≤ x :=
        fun x hc hlt => hmmin x hc.1 ⟨hc.2, hlt⟩
      have hstep := conjNext_found hsL hsls hsync ⟨hmL, hmall⟩ hmlt hmin'
      have heq : conjEmitGo (fuel+1) c = (c.Next).2.DocID :: conjEmitGo fuel (c.Next).2 := by
        simp [conjEmitGo, hstep.1]
      -- index of the new cursor
      obtain ⟨-, i₂, hpos₂, hi₂, hget₂⟩ := hstep.2.2.1
      have hn' : i₂ + 1 > n := by
        rcases hidx with ⟨-, rfl⟩ | ⟨d, hlo, hpos⟩
        · omega
        · obtain ⟨-, i, hposold, hiold, hgetold⟩ := hlo ▸ hsync.1
          rw [hposold] at hpos
          have hdlt : d < m := by rw [hlo] at hmlt; exact hmlt
          have hii : i < i₂ := by
            by_contra hcon
            have : L.getD i₂ 0 ≤ L.getD i 0 := sorted_getD_le hsL (Nat.le_of_not_lt hcon) hiold
            omega
          omega
      have hrec := ih (i₂ + 1) (c.Next).2 (some m) hstep.2.2
        (Or.inr ⟨m, rfl, by rw [hpos₂]; push_cast; ring⟩)
        (by omega)
      rw [heq, hstep.2.1]
      constructor
      · rw [List.pairwise_cons]
        refine ⟨?_, hrec.1⟩
        intro y hy
        exact ((hrec.2 y).mp hy).2
      · intro x
        rw [List.mem_cons, hrec.2 x]
        constructor
        · rintro (rfl | ⟨hc, hgt⟩)
          · exact ⟨⟨hmL, hmall⟩, hmlt⟩
          · exact ⟨hc, loLT_of_le hmlt (le_of_lt hgt)⟩
        · rintro ⟨hc, hlt⟩
          rcases Nat.lt_or_ge m x with h | h
          · exact Or.inr ⟨hc, h⟩
          · exact Or.inl (le_antisymm h (hmin' x hc hlt))
    · have hstep : (c.Next).1 = false :=
        conjNext_none hsL hsls hsync
          (fun x hc hlt => hex ⟨x, hc.1, hc.2, hlt⟩)
      have heq : conjEmitGo (fuel+1) c = [] := by
        simp [conjEmitGo, hstep]
      rw [heq]
      refine ⟨List.Pairwise.nil, ?_⟩
      intro x
      simp only [List.not_mem_nil, false_iff]
      rintro ⟨hc, hlt⟩
      exact hex ⟨x, hc.1, hc.2, hlt⟩

theorem insertByCost_perm (x : SlicePostingsIterator) (ys : List SlicePostingsIterator) :
    (insertByCost x ys).Perm (x :: ys) := by
  induction ys with
  | nil => exact List.Perm.refl _
  | cons y ys ih =>
    rw [insertByCost]
    by_cases h : x.Cost < y.Cost
    · rw [if_pos h]
    · rw [if_neg h]
      exact (ih.cons y).trans (List.Perm.swap x y ys)

theorem sortByCost_perm (xs : List SlicePostingsIterator) :
    (sortByCost xs).Perm xs := by
  induction xs with
  | nil => exact List.Perm.refl _
  | cons x xs ih =>
    exact (insertByCost_perm x (sortByCost xs)).trans (ih.cons x)

theorem length_le_sum_of_mem {ls : List (List ℕ)} {l : List ℕ} (h : l ∈ ls) :
    l.length ≤ (ls.map List.length).sum :=
  List.single_le_sum (fun _ _ => Nat.zero_le _) _ (List.mem_map_of_mem List.length h)

theorem map_docIDs_map_new (xs : List (List ℕ)) :
    (xs.map (fun l => NewSlicePostingsIterator l [])).map (fun o => o.docIDs) = xs := by
  induction xs with
  | nil => rfl
  | cons l rest ih =>
    rw [List.map_cons, List.map_cons, ih]
    rfl

/-- Claim C5 (confirmed): a ConjunctionIterator over two or more slice
children with strictly ascending doc-id lists emits, via repeated
`Next`, exactly the ascending intersection of their doc-id sets. -/
theorem C5_conjunction_intersection (ls : List (List ℕ)) (h2 : 2 ≤ ls.length)
    (hsorted : ∀ l ∈ ls, l.Pairwise (· < ·)) :
    conjEmit (NewConjunctionIterator (ls.map (fun l => NewSlicePostingsIterator l [])))
      ((ls.map List.length).sum + 1) = sortedInter ls := by
  cases ls with
  | nil => simp at h2
  | cons l₀ rest =>
    cases hsc : sortByCost ((l₀ :: rest).map (fun l => NewSlicePostingsIterator l [])) with
    | nil =>
      exfalso
      have hle := (sortByCost_perm ((l₀ :: rest).map (fun l => NewSlicePostingsIterator l []))).length_eq
      rw [hsc] at hle
      simp at hle
    | cons s₀ srest =>
      have hNew : NewConjunctionIterator ((l₀ :: rest).map (fun l => NewSlicePostingsIterator l []))
          = { lead := s₀, others := srest, current := 0 } := by
        unfold NewConjunctionIterator
        rw [hsc]
        rfl
      have hmemall : ∀ it ∈ s₀ :: srest,
          ∃ l, l ∈ l₀ :: rest ∧ it = NewSlicePostingsIterator l [] := by
        intro it hit
        have h1 : it ∈ (l₀ :: rest).map (fun l => NewSlicePostingsIterator l []) := by
          refine (sortByCost_perm _).mem_iff.mp ?_
          rw [hsc]
          exact hit
        obtain ⟨l, hl, rfl⟩ := List.mem_map.mp h1
        exact ⟨l, hl, rfl⟩
      obtain ⟨L0, hL0mem, hs₀⟩ := hmemall s₀ (List.mem_cons_self s₀ srest)
      have hdocL0 : s₀.docIDs = L0 := by rw [hs₀]; rfl
      have hsL : s₀.docIDs.Pairwise (· < ·) := by
        rw [hdocL0]; exact hsorted L0 hL0mem
      have hsls : ∀ l ∈ srest.map (fun o => o.docIDs), l.Pairwise (· < ·) := by
        intro l hl
        obtain ⟨o, ho, rfl⟩ := List.mem_map.mp hl
        obtain ⟨l', hl', rfl⟩ := hmemall o (List.mem_cons_of_mem s₀ ho)
        exact hsorted l' hl'
      have hsync : ConjSync { lead := s₀, others := srest, current := 0 }
          s₀.docIDs (srest.map (fun o => o.docIDs)) none := by
        constructor
        · refine ⟨rfl, ?_⟩
          rw [hs₀]; rfl
        · rw [List.forall₂_map_right_iff, List.forall₂_same]
          intro o ho
          obtain ⟨l', hl', rfl⟩ := hmemall o (List.mem_cons_of_mem s₀ ho)
          exact ⟨rfl, rfl⟩
      have hfuel : s₀.docIDs.length + 1 - 0 ≤ ((l₀ :: rest).map List.length).sum + 1 := by
        have := length_le_sum_of_mem (l := L0) hL0mem
        rw [hdocL0]
        omega
      have hspec := conjEmitGo_spec hsL hsls (((l₀ :: rest).map List.length).sum + 1) 0
        { lead := s₀, others := srest, current := 0 } none hsync (Or.inl ⟨rfl, rfl⟩) hfuel
      -- membership over the sorted children equals membership over ls
      have hmaps : (s₀ :: srest).map (fun o => o.docIDs) =
          (sortByCost ((l₀ :: rest).map (fun l => NewSlicePostingsIterator l []))).map
            (fun o => o.docIDs) := by rw [hsc]
      have hpermlists : ((s₀ :: srest).map (fun o => o.docIDs)).Perm (l₀ :: rest) := by
        rw [hmaps]
        have hp := (sortByCost_perm ((l₀ :: rest).map (fun l => NewSlicePostingsIterator l []))).map
          (fun o => o.docIDs)
        rw [map_docIDs_map_new] at hp
        exact hp
      have hcommon : ∀ x, (ConjCommon s₀.docIDs (srest.map (fun o => o.docIDs)) x ∧ loLT none x)
          ↔ (x ∈ l₀ ∧ ∀ l ∈ rest, x ∈ l) := by
        intro x
        have h1 : (ConjCommon s₀.docIDs (srest.map (fun o => o.docIDs)) x ∧ loLT none x)
            ↔ ∀ l ∈ (s₀ :: srest).map (fun o => o.docIDs), x ∈ l := by
          unfold ConjCommon
          simp only [List.map_cons, List.mem_cons, loLT]
          constructor
          · rintro ⟨⟨hL, hrest⟩, -⟩
            intro l hl
            rcases hl with rfl | hl'
            · exact hL
            · exact hrest l hl'
          · intro h
            exact ⟨⟨h _ (Or.inl rfl), fun l hl => h l (Or.inr hl)⟩, trivial⟩
        have h2 : (∀ l ∈ (s₀ :: srest).map (fun o => o.docIDs), x ∈ l)
            ↔ ∀ l ∈ l₀ :: rest, x ∈ l := by
          constructor
          · intro h l hl
            exact h l (hpermlists.mem_iff.mpr hl)
          · intro h l hl
            exact h l (hpermlists.mem_iff.mp hl)
        rw [h1, h2]
        constructor
        · intro h
          exact ⟨h l₀ (List.mem_cons_self l₀ rest), fun l hl => h l (List.mem_cons_of_mem l₀ hl)⟩
        · rintro ⟨ha, hb⟩ l hl
          rcases List.mem_cons.mp hl with rfl | hl'
          · exact ha
          · exact hb l hl'
      have hinterPW : (sortedInter (l₀ :: rest)).Pairwise (· < ·) :=
        (hsorted l₀ (List.mem_cons_self l₀ rest)).filter _
      have hintermem : ∀ x, x ∈ sortedInter (l₀ :: rest) ↔ (x ∈ l₀ ∧ ∀ l ∈ rest, x ∈ l) := by
        intro x
        unfold sortedInter
        rw [List.mem_filter]
        constructor
        · rintro ⟨hx, hall⟩
          refine ⟨hx, ?_⟩
          intro l hl
          have := (List.all_eq_true.mp hall) l hl
          exact of_decide_eq_true this
        · rintro ⟨hx, hall⟩
          refine ⟨hx, ?_⟩
          rw [List.all_eq_true]
          intro l hl
          exact decide_eq_true (hall l hl)
      unfold conjEmit
      rw [hNew]
      refine sorted_strict_ext hspec.1 hinterPW ?_
      intro x
      rw [hspec.2 x, hcommon x, hintermem x]

/-- Claim C5, witness: the repo's own conjunction test vector,
`[1,2,3,5,7] ∩ [2,3,4,5,8]`. -/
theorem C5_witness :
    conjEmit (NewConjunctionIterator
        ([[1,2,3,5,7],[2,3,4,5,8]].map (fun l => NewSlicePostingsIterator l [])))
      (([[1,2,3,5,7],[2,3,4,5,8]].map List.length).sum + 1) =
      sortedInter [[1,2,3,5,7],[2,3,4,5,8]] :=
  C5_conjunction_intersection [[1,2,3,5,7],[2,3,4,5,8]] (by decide) (by decide)

/-! ### `engine.DisjunctionIterator` (src/internal/engine/engine_test.go
concatenation, engine package)

A min-heap (`iterHeap`, Go `container/heap`) of the children ordered by
their current doc id.  The constructor keeps the children whose first
`Next` succeeds and heapifies; `Next` reads the root's doc id and then
drains every iterator parked on that doc id (`heap.Fix` after a
successful child `Next`, `heap.Pop` after an exhausted one); `Advance`
drains every iterator whose doc id is below the target.  Go mutates the
child through the heap's pointer before fixing/popping, so the model
writes the stepped child back at index 0 first.  The Go loops are
unbounded; the model gives them fuel `disjFuel`, which the proofs show
can never run out (each loop iteration strictly decreases the total
number of unconsumed doc ids plus live children). -/

def iterLess (a b : SlicePostingsIterator) : Bool := decide (a.DocID < b.DocID)

structure DisjunctionIterator where
  h : List SlicePostingsIterator
  current : ℕ
deriving DecidableEq, Repr

def NewDisjunctionIterator (children : List SlicePostingsIterator) : DisjunctionIterator :=
  let h := children.filterMap (fun child =>
    let r := child.Next
    if r.1 then some r.2 else none)
  { h := heapInit iterLess h, current := 0 }

/-- The drain loop of `DisjunctionIterator.Next`. -/
def disjDrainNext (current : ℕ) : ℕ → List SlicePostingsIterator → List SlicePostingsIterator
  | 0, h => h
  | fuel+1, h =>
    if 0 < h.length ∧ (h.getD 0 default).DocID = current then
      let r := (h.getD 0 default).Next
      if r.1 then disjDrainNext current fuel (heapFix iterLess (h.set 0 r.2) 0)
      else disjDrainNext current fuel (heapPop iterLess (h.set 0 r.2)).2
    else h

/-- The drain loop of `DisjunctionIterator.Advance`. -/
def disjDrainAdv (target : ℕ) : ℕ → List SlicePostingsIterator → List SlicePostingsIterator
  | 0, h => h
  | fuel+1, h =>
    if 0 < h.length ∧ (h.getD 0 default).DocID < target then
      let r := (h.getD 0 default).Advance target
      if r.1 then disjDrainAdv target fuel (heapFix iterLess (h.set 0 r.2) 0)
      else disjDrainAdv target fuel (heapPop iterLess (h.set 0 r.2)).2
    else h

/-- Fuel for the drain loops: total number of doc ids held by the heap's
children plus the number of children plus one; every loop iteration
either advances a child or removes one. -/
def disjFuel (h : List SlicePostingsIterator) : ℕ :=
  (h.map (fun it => it.docIDs.length)).sum + h.length + 1

def DisjunctionIterator.Next (d : DisjunctionIterator) : Bool × DisjunctionIterator :=
  if d.h.length = 0 then (false, d)
  else
    let current := (d.h.getD 0 default).DocID
    (true, { h := disjDrainNext current (disjFuel d.h) d.h, current := current })

def DisjunctionIterator.DocID (d : DisjunctionIterator) : ℕ := d.current

def DisjunctionIterator.Advance (d : DisjunctionIterator) (target : ℕ) :
    Bool × DisjunctionIterator :=
  let h' := disjDrainAdv target (disjFuel d.h) d.h
  if h'.length = 0 then (false, { d with h := h' })
  else (true, { h := h', current := (h'.getD 0 default).DocID })

def disjEmitGo : ℕ → DisjunctionIterator → List ℕ
  | 0, _ => []
  | fuel+1, d =>
    let r := d.Next
    if r.1 then r.2.DocID :: disjEmitGo fuel r.2 else []

/-- Doc ids produced by repeatedly calling `Next` until it fails. -/
def disjEmit (d : DisjunctionIterator) (fuel : ℕ) : List ℕ := disjEmitGo fuel d

/-- Insert into a strictly ascending list, dropping duplicates. -/
def insertSortedU (x : ℕ) : List ℕ → List ℕ
  | [] => [x]
  | y :: ys => if x < y then x :: y :: ys else if x = y then y :: ys else y :: insertSortedU x ys

/-- Ascending duplicate-free union of the doc-id sets. -/
def sortedUnion (ls : List (List ℕ)) : List ℕ :=
  (ls.foldr (fun l acc => l ++ acc) []).foldr insertSortedU []

/-! ### Verification of the Go binary heap

The sift and heapify loops are verified generically over the element
type and the comparison, assumed to be the strict order of a natural
`key` (for `iterHeap`, the current doc id). -/

theorem memAny {α : Type} [Inhabited α] {l : List α} {x : α} :
    x ∈ l ↔ ∃ j : ℕ, j < l.length ∧ l.getD j default = x := by
  rw [List.mem_iff_get]
  constructor
  · rintro ⟨⟨j, hj⟩, hx⟩
    refine ⟨j, hj, ?_⟩
    rw [List.getD_eq_getD_get? l default j, List.get?_eq_get hj]
    exact hx
  · rintro ⟨j, hj, hx⟩
    refine ⟨⟨j, hj⟩, ?_⟩
    rw [List.getD_eq_getD_get? l default j, List.get?_eq_get hj] at hx
    exact hx

theorem getD_set_self {α : Type} [Inhabited α] (l : List α) (i : ℕ) (v : α)
    (h : i < l.length) : (l.set i v).getD i default = v := by
  rw [List.getD_eq_getElem _ _ (by simpa using h)]
  exact List.getElem_set_self (by simpa using h)

theorem getD_set_ne {α : Type} [Inhabited α] (l : List α) (i j : ℕ) (v : α)
    (h : i ≠ j) : (l.set i v).getD j default = l.getD j default := by
  rw [List.getD_eq_getD_get?, List.getD_eq_getD_get?, List.get?_set_ne _ _ h]

theorem getD_take_lt {α : Type} [Inhabited α] (l : List α) (n k : ℕ) (hk : k < n) :
    (l.take n).getD k default = l.getD k default := by
  rw [List.getD_eq_getD_get?, List.getD_eq_getD_get?, List.get?_take hk]

theorem hswap_length {α : Type} [Inhabited α] (l : List α) (i j : ℕ) :
    (hswap l i j).length = l.length := by
  simp [hswap]

theorem hswap_getD_fst {α : Type} [Inhabited α] (l : List α) {i j : ℕ}
    (hi : i < l.length) (hj : j < l.length) :
    (hswap l i j).getD i default = l.getD j default := by
  unfold hswap
  rcases eq_or_ne j i with rfl | hne
  · exact getD_set_self _ _ _ (by simpa using hi)
  · rw [getD_set_ne _ _ _ _ hne]
    rw [getD_set_self _ _ _ hi]

theorem hswap_getD_snd {α : Type} [Inhabited α] (l : List α) {i j : ℕ}
    (hi : i < l.length) (hj : j < l.length) :
    (hswap l i j).getD j default = l.getD i default := by
  unfold hswap
  exact getD_set_self _ _ _ (by simpa using hj)

theorem hswap_getD_other {α : Type} [Inhabited α] (l : List α) {i j k : ℕ}
    (hki : k ≠ i) (hkj : k ≠ j) :
    (hswap l i j).getD k default = l.getD k default := by
  unfold hswap
  rw [getD_set_ne _ _ _ _ (fun h => hkj h.symm), getD_set_ne _ _ _ _ (fun h => hki h.symm)]

theorem count_middle {α : Type} [DecidableEq α] (pre post : List α) (x b : α) :
    (pre ++ x :: post).count b = pre.count b + post.count b + (if x = b then 1 else 0) := by
  rw [List.count_append, List.count_cons]
  by_cases hx : x = b
  · simp [hx]
    omega
  · simp [hx]

theorem count_set_getD {α : Type} [Inhabited α] [DecidableEq α] (l : List α) (n : ℕ) (v : α)
    (h : n < l.length) (b : α) :
    (l.set n v).count b + (if l.getD n default = b then 1 else 0) =
      l.count b + (if v = b then 1 else 0) := by
  have hdecomp : l = l.take n ++ l.getD n default :: l.drop (n+1) := by
    conv_lhs => rw [← List.take_append_drop n l]
    congr 1
    rw [List.drop_eq_getElem_cons h, List.getD_eq_getElem _ _ h]
  have hset : l.set n v = l.take n ++ v :: l.drop (n+1) := List.set_eq_take_cons_drop v h
  have hc1 : (l.set n v).count b =
      (l.take n).count b + (l.drop (n+1)).count b + (if v = b then 1 else 0) := by
    rw [hset, count_middle]
  have hc2 : l.count b =
      (l.take n).count b + (l.drop (n+1)).count b +
        (if l.getD n default = b then 1 else 0) := by
    conv_lhs => rw [hdecomp]
    rw [count_middle]
  omega

theorem hswap_perm {α : Type} [Inhabited α] [DecidableEq α] (l : List α) {i j : ℕ}
    (hi : i < l.length) (hj : j < l.length) :
    (hswap l i j).Perm l := by
  rw [List.perm_iff_count]
  intro b
  unfold hswap
  have hj' : j < (l.set i (l.getD j default)).length := by simpa using hj
  have h1 := count_set_getD l i (l.getD j default) hi b
  have h2 := count_set_getD (l.set i (l.getD j default)) j (l.getD i default) hj' b
  have hstep : (l.set i (l.getD j default)).getD j default = l.getD j default := by
    rcases eq_or_ne i j with rfl | hne
    · exact getD_set_self _ _ _ hi
    · exact getD_set_ne _ _ _ _ hne
  rw [hstep] at h2
  omega

theorem headD_cons_tail {α : Type} [Inhabited α] {l : List α} (h : l ≠ []) :
    l.getD 0 default :: l.tail = l := by
  cases l with
  | nil => exact absurd rfl h
  | cons a t => rfl

/-- Min-heap property on the window `[0, n)`, restricted to parents
`≥ i₀` (the Go `Init` loop establishes it for ever-smaller `i₀`). -/
def HeapPropFrom {α : Type} [Inhabited α] (key : α → ℕ) (l : List α) (i₀ n : ℕ) : Prop :=
  ∀ p c : ℕ, i₀ ≤ p → c < n → (c = 2*p+1 ∨ c = 2*p+2) →
    key (l.getD p default) ≤ key (l.getD c default)

/-- The child index the `down` sift descends into: the smaller of the
two children (the second one only if it is inside the window). -/
def downChild {α : Type} [Inhabited α] (lt : α → α → Bool) (l : List α) (i n : ℕ) : ℕ :=
  if 2*i+1+1 < n && lt (l.getD (2*i+1+1) default) (l.getD (2*i+1) default) then 2*i+1+1
  else 2*i+1

theorem heapDownGo_succ {α : Type} [Inhabited α] (lt : α → α → Bool) (fuel : ℕ)
    (l : List α) (i n : ℕ) :
    heapDownGo lt (fuel+1) l i n =
      if 2*i+1 ≥ n then (l, i)
      else if lt (l.getD (downChild lt l i n) default) (l.getD i default)
        then heapDownGo lt fuel (hswap l i (downChild lt l i n)) (downChild lt l i n) n
        else (l, i) := rfl

theorem downChild_mem {α : Type} [Inhabited α] (lt : α → α → Bool) (l : List α)
    {i n : ℕ} (h : 2*i+1 < n) :
    (downChild lt l i n = 2*i+1 ∨ downChild lt l i n = 2*i+2) ∧ downChild lt l i n < n := by
  unfold downChild
  by_cases hcnd : (decide (2*i+1+1 < n) &&
      lt (l.getD (2*i+1+1) default) (l.getD (2*i+1) default)) = true
  · rw [if_pos hcnd]
    obtain ⟨h1, -⟩ := Bool.and_eq_true_iff.mp hcnd
    have := of_decide_eq_true h1
    exact ⟨Or.inr (by omega), this⟩
  · rw [if_neg hcnd]
    exact ⟨Or.inl rfl, h⟩

theorem downChild_min {α : Type} [Inhabited α] (lt : α → α → Bool) (key : α → ℕ)
    (hlt : ∀ a b, lt a b = decide (key a < key b)) (l : List α) {i n : ℕ}
    (h : 2*i+1 < n) :
    ∀ c : ℕ, c < n → (c = 2*i+1 ∨ c = 2*i+2) →
      key (l.getD (downChild lt l i n) default) ≤ key (l.getD c default) := by
  intro c hc hch
  unfold downChild
  by_cases hcnd : (decide (2*i+1+1 < n) &&
      lt (l.getD (2*i+1+1) default) (l.getD (2*i+1) default)) = true
  · rw [if_pos hcnd]
    obtain ⟨-, h2⟩ := Bool.and_eq_true_iff.mp hcnd
    rw [hlt] at h2
    have hk := of_decide_eq_true h2
    rcases hch with rfl | rfl
    · exact le_of_lt hk
    · have heq : 2*i+1+1 = 2*i+2 := by omega
      rw [heq]
  · rw [if_neg hcnd]
    rcases hch with rfl | rfl
    · exact le_refl _
    · have h2n : 2*i+1+1 < n := by omega
      have hfalse : lt (l.getD (2*i+1+1) default) (l.getD (2*i+1) default) = false := by
        rcases Bool.eq_false_or_eq_true
            (lt (l.getD (2*i+1+1) default) (l.getD (2*i+1) default)) with ht | hf
        · exact absurd (Bool.and_eq_true_iff.mpr ⟨decide_eq_true h2n, ht⟩) hcnd
        · exact hf
      rw [hlt] at hfalse
      have hnk := of_decide_eq_false hfalse
      have heq : 2*i+1+1 = 2*i+2 := by omega
      rw [heq] at hnk
      omega

/-- The `down` sift restores the heap property: if the window satisfies
it at every parent `≥ i₀` other than the sift centre `m` — and the
centre's parent, when inside the restricted range, already dominates
the centre's children — then after sifting, the whole restricted window
satisfies it.  The sift permutes the window and never touches indices
`≥ n`. -/
theorem heapDownGo_restore {α : Type} [Inhabited α] [DecidableEq α]
    (lt : α → α → Bool) (key : α → ℕ)
    (hlt : ∀ a b, lt a b = decide (key a < key b)) (i₀ n : ℕ) :
    ∀ (fuel : ℕ) (l : List α) (m : ℕ), n ≤ l.length → i₀ ≤ m → m < n → n - m ≤ fuel →
    (∀ p c : ℕ, i₀ ≤ p → p ≠ m → c < n → (c = 2*p+1 ∨ c = 2*p+2) →
      key (l.getD p default) ≤ key (l.getD c default)) →
    (∀ c : ℕ, 0 < m → i₀ ≤ (m-1)/2 → c < n → (c = 2*m+1 ∨ c = 2*m+2) →
      key (l.getD ((m-1)/2) default) ≤ key (l.getD c default)) →
    HeapPropFrom key (heapDownGo lt fuel l m n).1 i₀ n ∧
      (heapDownGo lt fuel l m n).1.Perm l ∧
      (heapDownGo lt fuel l m n).1.length = l.length ∧
      (∀ k : ℕ, n ≤ k → (heapDownGo lt fuel l m n).1.getD k default = l.getD k default) := by
  intro fuel
  induction fuel with
  | zero =>
    intro l m hn hi₀m hmn hfuel h1 h2
    exact absurd hfuel (by omega)
  | succ fuel ih =>
    intro l m hn hi₀m hmn hfuel h1 h2
    rw [heapDownGo_succ]
    by_cases hj1 : 2*m+1 ≥ n
    · rw [if_pos hj1]
      refine ⟨?_, List.Perm.refl l, rfl, fun k hk => rfl⟩
      intro p c hp hc hch
      rcases eq_or_ne p m with rfl | hpm
      · exact absurd hc (by omega)
      · exact h1 p c hp hpm hc hch
    · rw [if_neg hj1]
      have hj1' : 2*m+1 < n := by omega
      obtain ⟨hjch, hjn⟩ := downChild_mem lt l hj1'
      have hjmin := downChild_min lt key hlt l hj1'
      set j := downChild lt l m n with hjdef
      have hmj : m < j := by omega
      by_cases hswp : lt (l.getD j default) (l.getD m default) = true
      · rw [if_pos hswp]
        rw [hlt] at hswp
        have hkjm : key (l.getD j default) < key (l.getD m default) :=
          of_decide_eq_true hswp
        have hmlen : m < l.length := by omega
        have hjlen : j < l.length := by omega
        have e1 : (hswap l m j).getD m default = l.getD j default :=
          hswap_getD_fst l hmlen hjlen
        have e2 : (hswap l m j).getD j default = l.getD m default :=
          hswap_getD_snd l hmlen hjlen
        have e3 : ∀ k : ℕ, k ≠ m → k ≠ j →
            (hswap l m j).getD k default = l.getD k default :=
          fun k hkm hkj => hswap_getD_other l hkm hkj
        have h1' : ∀ p c : ℕ, i₀ ≤ p → p ≠ j → c < n → (c = 2*p+1 ∨ c = 2*p+2) →
            key ((hswap l m j).getD p default) ≤ key ((hswap l m j).getD c default) := by
          intro p c hp hpj hc hch
          rcases eq_or_ne p m with rfl | hpm
          · rw [e1]
            rcases eq_or_ne c j with rfl | hcj
            · rw [e2]
              exact le_of_lt hkjm
            · rw [e3 c (by omega) hcj]
              exact hjmin c hc hch
          · rcases eq_or_ne c m with hcm | hcm
            · rw [hcm, e1, e3 p hpm hpj]
              have hp2 : p = (m-1)/2 := by omega
              have hm0 : 0 < m := by omega
              rw [hp2] at hp ⊢
              exact h2 j hm0 hp hjn hjch
            · rcases eq_or_ne c j with rfl | hcj
              · exact absurd (show p = m by omega) hpm
              · rw [e3 p hpm hpj, e3 c hcm hcj]
                exact h1 p c hp hpm hc hch
        have h2' : ∀ c : ℕ, 0 < j → i₀ ≤ (j-1)/2 → c < n → (c = 2*j+1 ∨ c = 2*j+2) →
            key ((hswap l m j).getD ((j-1)/2) default) ≤
              key ((hswap l m j).getD c default) := by
          intro c hj0 hic hc hch
          have hpj2 : (j-1)/2 = m := by omega
          rw [hpj2, e1, e3 c (by omega) (by omega)]
          exact h1 j c (by omega) (by omega) hc hch
        have hrec := ih (hswap l m j) j (by rw [hswap_length]; exact hn)
          (by omega) hjn (by omega) h1' h2'
        refine ⟨hrec.1, hrec.2.1.trans (hswap_perm l hmlen hjlen), ?_, ?_⟩
        · rw [hrec.2.2.1, hswap_length]
        · intro k hk
          rw [hrec.2.2.2 k hk, e3 k (by omega) (by omega)]
      · rw [if_neg hswp]
        rw [hlt] at hswp
        have hkmj : key (l.getD m default) ≤ key (l.getD j default) := by
          have := of_decide_eq_false (Bool.not_eq_true _ ▸ hswp)
          omega
        refine ⟨?_, List.Perm.refl l, rfl, fun k hk => rfl⟩
        intro p c hp hc hch
        rcases eq_or_ne p m with rfl | hpm
        · exact le_trans hkmj (hjmin c hc hch)
        · exact h1 p c hp hpm hc hch

/-- In a min-heap the root is a minimum of the window. -/
theorem heapProp_root_min {α : Type} [Inhabited α] (key : α → ℕ) {l : List α} {n : ℕ}
    (hp : HeapPropFrom key l 0 n) :
    ∀ c : ℕ, c < n → key (l.getD 0 default) ≤ key (l.getD c default) := by
  intro c
  induction c using Nat.strong_induction_on with
  | _ c ih =>
    intro hc
    rcases Nat.eq_zero_or_pos c with rfl | hc0
    · exact le_refl _
    · have hch : c = 2*((c-1)/2)+1 ∨ c = 2*((c-1)/2)+2 := by omega
      exact le_trans (ih ((c-1)/2) (by omega) (by omega))
        (hp ((c-1)/2) c (Nat.zero_le _) hc hch)

theorem heapInitGo_spec {α : Type} [Inhabited α] [DecidableEq α]
    (lt : α → α → Bool) (key : α → ℕ)
    (hlt : ∀ a b, lt a b = decide (key a < key b)) :
    ∀ (i : ℕ) (l : List α), i ≤ l.length / 2 →
    HeapPropFrom key l i l.length →
    HeapPropFrom key (heapInitGo lt i l) 0 (heapInitGo lt i l).length ∧
      (heapInitGo lt i l).Perm l ∧ (heapInitGo lt i l).length = l.length := by
  intro i
  induction i with
  | zero =>
    intro l hi hp
    exact ⟨hp, List.Perm.refl l, rfl⟩
  | succ i ih =>
    intro l hi hp
    have hilen : i < l.length := by omega
    have hres := heapDownGo_restore lt key hlt i l.length l.length l i (le_refl _)
      (le_refl i) hilen (by omega)
      (fun p c hp' hpm hc hch => hp p c (by omega) hc hch)
      (fun c hm0 hic hc hch => absurd hic (by omega))
    have hstep : heapInitGo lt (i+1) l = heapInitGo lt i (heapDown lt l i l.length).1 := rfl
    have hdown : heapDown lt l i l.length = heapDownGo lt l.length l i l.length := rfl
    rw [hstep, hdown]
    have hlen2 := hres.2.2.1
    have hrec := ih (heapDownGo lt l.length l i l.length).1
      (by rw [hlen2]; omega)
      (by rw [hlen2]; exact hres.1)
    exact ⟨hrec.1, hrec.2.1.trans hres.2.1, hrec.2.2.trans hlen2⟩

theorem heapInit_spec {α : Type} [Inhabited α] [DecidableEq α]
    (lt : α → α → Bool) (key : α → ℕ)
    (hlt : ∀ a b, lt a b = decide (key a < key b)) (l : List α) :
    HeapPropFrom key (heapInit lt l) 0 (heapInit lt l).length ∧
      (heapInit lt l).Perm l ∧ (heapInit lt l).length = l.length := by
  exact heapInitGo_spec lt key hlt (l.length / 2) l (le_refl _)
    (fun p c hp hc hch => absurd hc (by omega))

theorem heapFix_zero_restore {α : Type} [Inhabited α] [DecidableEq α]
    (lt : α → α → Bool) (key : α → ℕ)
    (hlt : ∀ a b, lt a b = decide (key a < key b)) (l : List α)
    (h1 : ∀ p c : ℕ, p ≠ 0 → c < l.length → (c = 2*p+1 ∨ c = 2*p+2) →
      key (l.getD p default) ≤ key (l.getD c default)) :
    HeapPropFrom key (heapFix lt l 0) 0 (heapFix lt l 0).length ∧
      (heapFix lt l 0).Perm l ∧ (heapFix lt l 0).length = l.length := by
  rcases Nat.eq_zero_or_pos l.length with hlen | hlen
  · have hnil : l = [] := List.length_eq_zero.mp hlen
    subst hnil
    have hfe : heapFix lt ([] : List α) 0 = [] := rfl
    rw [hfe]
    exact ⟨fun p c hp hc hch => absurd hc (by simp), List.Perm.refl _, rfl⟩
  · have hres := heapDownGo_restore lt key hlt 0 l.length l.length l 0 (le_refl _)
      (le_refl 0) hlen (by omega)
      (fun p c hp hpm hc hch => h1 p c hpm hc hch)
      (fun c hm0 _ _ _ => absurd hm0 (by omega))
    have hfix : heapFix lt l 0 = (heapDownGo lt l.length l 0 l.length).1 := by
      unfold heapFix heapDown
      by_cases hr : (heapDownGo lt l.length l 0 l.length).2 > 0
      · rw [if_pos hr]
      · rw [if_neg hr]
        show heapUpGo lt 1 _ 0 = _
        rw [heapUpGo]
        simp
    rw [hfix]
    refine ⟨?_, hres.2.1, hres.2.2.1⟩
    rw [hres.2.2.1]
    exact hres.1

theorem heapPop_restore {α : Type} [Inhabited α] [DecidableEq α]
    (lt : α → α → Bool) (key : α → ℕ)
    (hlt : ∀ a b, lt a b = decide (key a < key b)) (l : List α)
    (hne : l ≠ [])
    (h1 : ∀ p c : ℕ, p ≠ 0 → c < l.length → (c = 2*p+1 ∨ c = 2*p+2) →
      key (l.getD p default) ≤ key (l.getD c default)) :
    (heapPop lt l).1 = l.getD 0 default ∧
      HeapPropFrom key (heapPop lt l).2 0 (heapPop lt l).2.length ∧
      ((heapPop lt l).2).Perm l.tail ∧
      (heapPop lt l).2.length = l.length - 1 := by
  have hlpos : 0 < l.length := List.length_pos.mpr hne
  have hpop : heapPop lt l =
      ((heapDownGo lt (l.length-1) (hswap l 0 (l.length-1)) 0 (l.length-1)).1.getD
          (l.length-1) default,
        (heapDownGo lt (l.length-1) (hswap l 0 (l.length-1)) 0 (l.length-1)).1.take
          (l.length-1)) := rfl
  rcases Nat.eq_zero_or_pos (l.length - 1) with hn | hn
  · have hl1 : l.length = 1 := by omega
    have hpe : heapPop lt l = ((hswap l 0 0).getD 0 default, ([] : List α)) := by
      rw [hpop, hn]
      rfl
    have htail : l.tail = [] := by
      have := l.length_tail
      rw [hl1] at this
      exact List.length_eq_zero.mp this
    rw [hpe]
    refine ⟨?_, ?_, ?_, ?_⟩
    · show (hswap l 0 0).getD 0 default = l.getD 0 default
      exact hswap_getD_fst l hlpos hlpos
    · show HeapPropFrom key ([] : List α) 0 (List.length ([] : List α))
      exact fun p c hp hc hch => absurd hc (by simp)
    · show ([] : List α).Perm l.tail
      rw [htail]
    · show ([] : List α).length = l.length - 1
      simp [hl1]
  · set n := l.length - 1 with hndef
    have hres := heapDownGo_restore lt key hlt 0 n n (hswap l 0 n) 0
      (by rw [hswap_length]; omega) (le_refl 0) hn (by omega)
      (fun p c hp hpm hc hch => by
        have hcne0 : c ≠ 0 := by omega
        have hcnen : c ≠ n := by omega
        have hpnen : p ≠ n := by omega
        rw [hswap_getD_other l hpm hpnen, hswap_getD_other l hcne0 hcnen]
        exact h1 p c hpm (by omega) hch)
      (fun c hm0 _ _ _ => absurd hm0 (by omega))
    set l2 := (heapDownGo lt n (hswap l 0 n) 0 n).1 with hl2def
    have hlen2 : l2.length = l.length := by rw [hres.2.2.1, hswap_length]
    have hfst : l2.getD n default = l.getD 0 default := by
      rw [hres.2.2.2 n (le_refl n), hswap_getD_snd l hlpos (by omega)]
    have htklen : (l2.take n).length = n := by
      rw [List.length_take]
      omega
    rw [hpop]
    refine ⟨?_, ?_, ?_, ?_⟩
    · exact hfst
    · show HeapPropFrom key (l2.take n) 0 (l2.take n).length
      intro p c hp hc hch
      rw [htklen] at hc
      rw [getD_take_lt _ _ _ hc, getD_take_lt _ _ _ (show p < n by omega)]
      exact hres.1 p c hp hc hch
    · show (l2.take n).Perm l.tail
      have hdrop : l2.drop n = [l2.getD n default] := by
        have hnl2 : n < l2.length := by omega
        rw [List.drop_eq_getElem_cons hnl2, List.getD_eq_getElem _ _ hnl2]
        congr 1
        exact List.drop_eq_nil_of_le (by omega)
      have hsplit : l2.take n ++ [l2.getD n default] = l2 := by
        rw [← hdrop, List.take_append_drop]
      have hperm0 : (l2.take n ++ [l2.getD n default]).Perm l2 := by
        rw [hsplit]
      have hperm1 : (l2.getD n default :: l2.take n).Perm l :=
        ((List.perm_append_singleton _ _).symm.trans hperm0).trans
          (hres.2.1.trans (hswap_perm l hlpos (by omega)))
      rw [hfst] at hperm1
      have hltail : l.getD 0 default :: l.tail = l := headD_cons_tail hne
      have hperm2 : (l.getD 0 default :: l2.take n).Perm (l.getD 0 default :: l.tail) := by
        rw [hltail]
        exact hperm1
      exact hperm2.cons_inv
    · show (l2.take n).length = l.length - 1
      omega

/-! ### Invariants of the disjunction heap

Every live child is parked on an element of its (strictly ascending)
doc-id list; `inRem it x` says `x` is one of the child's unconsumed doc
ids, and `heapElems` is the union of those over the heap.
`heapMeasure` (unconsumed doc ids, summed) strictly decreases at every
drain-loop iteration, which sizes the fuel. -/

def goodIter (it : SlicePostingsIterator) : Prop :=
  it.docIDs.Pairwise (· < ·) ∧ ∃ i : ℕ, it.pos = (i : ℤ) ∧ i < it.docIDs.length

def inRem (it : SlicePostingsIterator) (x : ℕ) : Prop :=
  x ∈ it.docIDs ∧ it.DocID ≤ x

def heapElems (h : List SlicePostingsIterator) (x : ℕ) : Prop :=
  ∃ it ∈ h, inRem it x

def remaining (it : SlicePostingsIterator) : ℕ := it.docIDs.length - it.pos.toNat

def heapMeasure (h : List SlicePostingsIterator) : ℕ := (h.map remaining).sum

theorem goodIter_tracks {it : SlicePostingsIterator} (h : goodIter it) :
    Tracks it it.docIDs (some it.DocID) := by
  obtain ⟨hs, i, hpos, hi⟩ := h
  refine ⟨rfl, i, hpos, hi, ?_⟩
  unfold SlicePostingsIterator.DocID
  rw [hpos]
  rfl

theorem goodIter_docID_mem {it : SlicePostingsIterator} (h : goodIter it) :
    it.DocID ∈ it.docIDs := by
  obtain ⟨hs, i, hpos, hi⟩ := h
  refine mem_iff_getD.mpr ⟨i, hi, ?_⟩
  unfold SlicePostingsIterator.DocID
  rw [hpos]
  rfl

theorem heapMeasure_perm {h₁ h₂ : List SlicePostingsIterator} (h : h₁.Perm h₂) :
    heapMeasure h₁ = heapMeasure h₂ :=
  (h.map remaining).sum_eq

theorem heapMeasure_cons (a : SlicePostingsIterator) (t : List SlicePostingsIterator) :
    heapMeasure (a :: t) = remaining a + heapMeasure t := by
  simp [heapMeasure]

theorem heapMeasure_le_len_sum (h : List SlicePostingsIterator) :
    heapMeasure h ≤ (h.map (fun it => it.docIDs.length)).sum := by
  induction h with
  | nil => exact le_refl _
  | cons a t ih =>
    rw [heapMeasure_cons, List.map_cons, List.sum_cons]
    have : remaining a ≤ a.docIDs.length := Nat.sub_le _ _
    omega

theorem disjDrainNext_succ (current fuel : ℕ) (h : List SlicePostingsIterator) :
    disjDrainNext current (fuel+1) h =
      if 0 < h.length ∧ (h.getD 0 default).DocID = current then
        if ((h.getD 0 default).Next).1 then
          disjDrainNext current fuel
            (heapFix iterLess (h.set 0 ((h.getD 0 default).Next).2) 0)
        else disjDrainNext current fuel
          (heapPop iterLess (h.set 0 ((h.getD 0 default).Next).2)).2
      else h := rfl

/-- The `Next` drain loop consumes exactly the doc id `current` from
every child parked on it: afterwards the heap property still holds,
every child sits strictly past `current`, and the unconsumed doc ids
are unchanged except that `current` is gone.  Each iteration removes
one unconsumed doc id, so the measure strictly decreases whenever the
loop runs at least once. -/
theorem disjDrainNext_spec (current : ℕ) :
    ∀ (fuel : ℕ) (h : List SlicePostingsIterator),
    heapMeasure h < fuel →
    (∀ it ∈ h, goodIter it) →
    (∀ it ∈ h, current ≤ it.DocID) →
    HeapPropFrom SlicePostingsIterator.DocID h 0 h.length →
    (∀ it ∈ disjDrainNext current fuel h, goodIter it) ∧
    (∀ it ∈ disjDrainNext current fuel h, current < it.DocID) ∧
    HeapPropFrom SlicePostingsIterator.DocID (disjDrainNext current fuel h) 0
      (disjDrainNext current fuel h).length ∧
    (∀ x : ℕ, (heapElems (disjDrainNext current fuel h) x ∨ x = current) ↔
      (heapElems h x ∨ x = current)) ∧
    heapMeasure (disjDrainNext current fuel h) ≤ heapMeasure h ∧
    (0 < h.length → (h.getD 0 default).DocID = current →
      heapMeasure (disjDrainNext current fuel h) < heapMeasure h) := by
  intro fuel
  induction fuel with
  | zero =>
    intro h hm _ _ _
    exact absurd hm (by omega)
  | succ fuel ih =>
    intro h hm hgood hge hheap
    rw [disjDrainNext_succ]
    by_cases hcond : 0 < h.length ∧ (h.getD 0 default).DocID = current
    · obtain ⟨hlen, hroot⟩ := hcond
      rw [if_pos ⟨hlen, hroot⟩]
      set a := h.getD 0 default with hadef
      have hane : h ≠ [] := by
        intro he
        rw [he] at hlen
        simp at hlen
      have hcons : a :: h.tail = h := headD_cons_tail hane
      have hamem : a ∈ h := memAny.mpr ⟨0, hlen, rfl⟩
      obtain ⟨hsa, i, hpos, hi⟩ := hgood a hamem
      have htracks : Tracks a a.docIDs (some current) := by
        have := goodIter_tracks ⟨hsa, i, hpos, hi⟩
        rw [hroot] at this
        exact this
      have hremapos : 1 ≤ remaining a := by
        show 1 ≤ a.docIDs.length - a.pos.toNat
        rw [hpos]
        have : ((i : ℤ)).toNat = i := rfl
        omega
      have hmcons : heapMeasure h = remaining a + heapMeasure h.tail := by
        conv_lhs => rw [← hcons]
        exact heapMeasure_cons a h.tail
      have hvals : ∀ (v : SlicePostingsIterator) (k : ℕ), k ≠ 0 →
          (v :: h.tail).getD k default = h.getD k default := by
        intro v k hk
        conv_rhs => rw [← hcons]
        cases k with
        | zero => exact absurd rfl hk
        | succ k => rfl
      have hlen_cons : ∀ v : SlicePostingsIterator, (v :: h.tail).length = h.length := by
        intro v
        conv_rhs => rw [← hcons]
        rfl
      have hsetv : ∀ v : SlicePostingsIterator, h.set 0 v = v :: h.tail := by
        intro v
        conv_lhs => rw [← hcons]
        rfl
      have htailsub : ∀ it ∈ h.tail, it ∈ h := by
        intro it hit
        rw [← hcons]
        exact List.mem_cons_of_mem a hit
      have hedges : ∀ v : SlicePostingsIterator,
          ∀ p c : ℕ, p ≠ 0 → c < (v :: h.tail).length → (c = 2*p+1 ∨ c = 2*p+2) →
          SlicePostingsIterator.DocID ((v :: h.tail).getD p default) ≤
            SlicePostingsIterator.DocID ((v :: h.tail).getD c default) := by
        intro v p c hp hc hch
        rw [hvals v p hp, hvals v c (by omega)]
        rw [hlen_cons] at hc
        exact hheap p c (Nat.zero_le p) hc hch
      by_cases hex : ∃ x ∈ a.docIDs, loLT (some current) x
      · obtain ⟨m, hmmem, hmlt, hmmin⟩ := sorted_min_exists hsa (loLT (some current)) hex
        have hnext := next_spec_found hsa htracks hmmem hmlt hmmin
        rw [hnext.1, if_pos rfl]
        set r2 := (a.Next).2 with hr2def
        obtain ⟨hr2doc, i₂, hpos₂, hi₂, hget₂⟩ := hnext.2
        have hr2good : goodIter r2 :=
          ⟨by rw [hr2doc]; exact hsa, i₂, hpos₂, by rw [hr2doc]; exact hi₂⟩
        have hr2DocID : r2.DocID = m := Tracks.docID ⟨hr2doc, i₂, hpos₂, hi₂, hget₂⟩
        have hcm : current < m := hmlt
        have hrem2 : remaining r2 + 1 = remaining a := by
          show a.docIDs.length - (a.pos + 1).toNat + 1 = a.docIDs.length - a.pos.toNat
          rw [hpos]
          have h1 : ((i : ℤ) + 1).toNat = i + 1 := by omega
          have h2 : ((i : ℤ)).toNat = i := rfl
          omega
        rw [hsetv r2]
        have hfix := heapFix_zero_restore iterLess SlicePostingsIterator.DocID
          (fun a b => rfl) (r2 :: h.tail) (hedges r2)
        set h₁ := heapFix iterLess (r2 :: h.tail) 0 with h₁def
        have hperm1 : h₁.Perm (r2 :: h.tail) := hfix.2.1
        have hmem1 : ∀ it : SlicePostingsIterator, it ∈ h₁ ↔ (it = r2 ∨ it ∈ h.tail) := by
          intro it
          rw [hperm1.mem_iff, List.mem_cons]
        have hm1 : heapMeasure h₁ + 1 = heapMeasure h := by
          rw [heapMeasure_perm hperm1, heapMeasure_cons]
          omega
        have hgood1 : ∀ it ∈ h₁, goodIter it := by
          intro it hit
          rcases (hmem1 it).mp hit with rfl | hit'
          · exact hr2good
          · exact hgood it (htailsub it hit')
        have hge1 : ∀ it ∈ h₁, current ≤ it.DocID := by
          intro it hit
          rcases (hmem1 it).mp hit with rfl | hit'
          · rw [hr2DocID]
            omega
          · exact hge it (htailsub it hit')
        have hrec := ih h₁ (by omega) hgood1 hge1 hfix.1
        refine ⟨hrec.1, hrec.2.1, hrec.2.2.1, ?_, by omega, fun _ _ => by omega⟩
        intro x
        rw [hrec.2.2.2.1 x]
        constructor
        · rintro (⟨it, hit, hinr⟩ | rfl)
          · rcases (hmem1 it).mp hit with rfl | hit'
            · have hinr' : x ∈ r2.docIDs ∧ r2.DocID ≤ x := hinr
              rw [hr2doc] at hinr'
              refine Or.inl ⟨a, hamem, hinr'.1, ?_⟩
              rw [hroot]
              have := hinr'.2
              rw [hr2DocID] at this
              omega
            · exact Or.inl ⟨it, htailsub it hit', hinr⟩
          · exact Or.inr rfl
        · rintro (⟨it, hit, hinr⟩ | rfl)
          · have hcases : it = a ∨ it ∈ h.tail := by
              rw [← hcons] at hit
              exact List.mem_cons.mp hit
            rcases hcases with rfl | hit'
            · have hinr' : x ∈ a.docIDs ∧ a.DocID ≤ x := hinr
              rw [hroot] at hinr'
              rcases eq_or_ne x current with he | hne
              · exact Or.inr he
              · have hxgt : current < x := by
                  have := hinr'.2
                  omega
                refine Or.inl ⟨r2, (hmem1 r2).mpr (Or.inl rfl), ?_, ?_⟩
                · rw [hr2doc]
                  exact hinr'.1
                · rw [hr2DocID]
                  exact hmmin x hinr'.1 hxgt
            · exact Or.inl ⟨it, (hmem1 it).mpr (Or.inr hit'), hinr⟩
          · exact Or.inr rfl
      · have hnone : ∀ x ∈ a.docIDs, ¬ loLT (some current) x :=
          fun x hx hlt => hex ⟨x, hx, hlt⟩
        have hnf : (a.Next).1 = false := next_spec_none hsa htracks hnone
        rw [hnf, if_neg (by simp : ¬ (false = true))]
        set r2 := (a.Next).2 with hr2def
        rw [hsetv r2]
        have hpop := heapPop_restore iterLess SlicePostingsIterator.DocID
          (fun a b => rfl) (r2 :: h.tail) (List.cons_ne_nil _ _) (hedges r2)
        set h₁ := (heapPop iterLess (r2 :: h.tail)).2 with h₁def
        have hperm1 : h₁.Perm h.tail := hpop.2.2.1
        have hmem1 : ∀ it : SlicePostingsIterator, it ∈ h₁ ↔ it ∈ h.tail :=
          fun it => hperm1.mem_iff
        have hm1 : heapMeasure h₁ = heapMeasure h.tail := heapMeasure_perm hperm1
        have hgood1 : ∀ it ∈ h₁, goodIter it :=
          fun it hit => hgood it (htailsub it ((hmem1 it).mp hit))
        have hge1 : ∀ it ∈ h₁, current ≤ it.DocID :=
          fun it hit => hge it (htailsub it ((hmem1 it).mp hit))
        have hrec := ih h₁ (by omega) hgood1 hge1 hpop.2.1
        refine ⟨hrec.1, hrec.2.1, hrec.2.2.1, ?_, by omega, fun _ _ => by omega⟩
        intro x
        rw [hrec.2.2.2.1 x]
        constructor
        · rintro (⟨it, hit, hinr⟩ | rfl)
          · exact Or.inl ⟨it, htailsub it ((hmem1 it).mp hit), hinr⟩
          · exact Or.inr rfl
        · rintro (⟨it, hit, hinr⟩ | rfl)
          · have hcases : it = a ∨ it ∈ h.tail := by
              rw [← hcons] at hit
              exact List.mem_cons.mp hit
            rcases hcases with rfl | hit'
            · have hinr' : x ∈ a.docIDs ∧ a.DocID ≤ x := hinr
              rcases eq_or_ne x current with he | hne
              · exact Or.inr he
              · exfalso
                have hxgt : current < x := by
                  have := hinr'.2
                  rw [hroot] at this
                  omega
                exact hnone x hinr'.1 hxgt
            · exact Or.inl ⟨it, (hmem1 it).mpr hit', hinr⟩
          · exact Or.inr rfl
    · rw [if_neg hcond]
      refine ⟨hgood, ?_, hheap, fun x => Iff.rfl, le_refl _, ?_⟩
      · intro it hit
        rcases Nat.eq_zero_or_pos h.length with hlen | hlen
        · rw [List.length_eq_zero.mp hlen] at hit
          simp at hit
        · have hrootne : (h.getD 0 default).DocID ≠ current := fun he => hcond ⟨hlen, he⟩
          have hrootge : current ≤ (h.getD 0 default).DocID :=
            hge _ (memAny.mpr ⟨0, hlen, rfl⟩)
          obtain ⟨j, hj, hje⟩ := memAny.mp hit
          have hmin := heapProp_root_min SlicePostingsIterator.DocID hheap j hj
          rw [hje] at hmin
          omega
      · intro hlen hroot
        exact absurd ⟨hlen, hroot⟩ hcond

theorem disjNext_nil {d : DisjunctionIterator} (h : d.h = []) : d.Next = (false, d) := by
  rw [DisjunctionIterator.Next, if_pos (by rw [h]; rfl)]

theorem disjNext_cons {d : DisjunctionIterator} (h : d.h.length ≠ 0) :
    d.Next = (true,
      { h := disjDrainNext ((d.h.getD 0 default).DocID) (disjFuel d.h) d.h,
        current := (d.h.getD 0 default).DocID }) := by
  rw [DisjunctionIterator.Next, if_neg h]

theorem disjEmitGo_succ (fuel : ℕ) (d : DisjunctionIterator) :
    disjEmitGo (fuel+1) d =
      if (d.Next).1 = true then (d.Next).2.DocID :: disjEmitGo fuel (d.Next).2 else [] := rfl

/-- Emission of the disjunction iterator: starting from any heap state
satisfying the invariants, the emitted doc ids are strictly ascending
and are exactly the unconsumed doc ids of the heap's children. -/
theorem disjEmitGo_spec :
    ∀ (fuel : ℕ) (d : DisjunctionIterator),
    heapMeasure d.h < fuel →
    (∀ it ∈ d.h, goodIter it) →
    HeapPropFrom SlicePostingsIterator.DocID d.h 0 d.h.length →
    (disjEmitGo fuel d).Pairwise (· < ·) ∧
    (∀ x : ℕ, x ∈ disjEmitGo fuel d ↔ heapElems d.h x) := by
  intro fuel
  induction fuel with
  | zero =>
    intro d hm _ _
    exact absurd hm (by omega)
  | succ fuel ih =>
    intro d hm hgood hheap
    rw [disjEmitGo_succ]
    rcases Nat.eq_zero_or_pos d.h.length with hlen | hlen
    · have hnil : d.h = [] := List.length_eq_zero.mp hlen
      have hnf : (d.Next).1 = false := by rw [disjNext_nil hnil]
      rw [hnf, if_neg (by simp : ¬ (false = true))]
      refine ⟨List.Pairwise.nil, ?_⟩
      intro x
      simp only [List.not_mem_nil, false_iff]
      rintro ⟨it, hit, -⟩
      rw [hnil] at hit
      simp at hit
    · set cur := (d.h.getD 0 default).DocID with hcurdef
      have hne := disjNext_cons (d := d) (by omega)
      have h1 : (d.Next).1 = true := by rw [hne]
      have hd'h : (d.Next).2.h = disjDrainNext cur (disjFuel d.h) d.h := by rw [hne]
      have hd'doc : (d.Next).2.DocID = cur := by
        rw [hne, hcurdef]
        rfl
      have hge : ∀ it ∈ d.h, cur ≤ it.DocID := by
        intro it hit
        obtain ⟨j, hj, hje⟩ := memAny.mp hit
        have hmin := heapProp_root_min SlicePostingsIterator.DocID hheap j hj
        rw [hje] at hmin
        exact hmin
      have hdfuel : heapMeasure d.h < disjFuel d.h := by
        have := heapMeasure_le_len_sum d.h
        unfold disjFuel
        omega
      have hdrain := disjDrainNext_spec cur (disjFuel d.h) d.h hdfuel hgood hge hheap
      have hstrict : heapMeasure (disjDrainNext cur (disjFuel d.h) d.h) < heapMeasure d.h :=
        hdrain.2.2.2.2.2 hlen rfl
      have hrec := ih (d.Next).2
        (by rw [hd'h]; exact lt_of_lt_of_le hstrict (Nat.lt_succ_iff.mp hm))
        (by rw [hd'h]; exact hdrain.1) (by rw [hd'h]; exact hdrain.2.2.1)
      rw [h1, if_pos rfl, hd'doc]
      have hcurmem : heapElems d.h cur := by
        refine ⟨d.h.getD 0 default, memAny.mpr ⟨0, hlen, rfl⟩, ?_, le_refl _⟩
        exact goodIter_docID_mem (hgood _ (memAny.mpr ⟨0, hlen, rfl⟩))
      constructor
      · rw [List.pairwise_cons]
        refine ⟨?_, hrec.1⟩
        intro y hy
        obtain ⟨it, hit, hym, hyge⟩ := (hrec.2 y).mp hy
        rw [hd'h] at hit
        have := hdrain.2.1 it hit
        omega
      · intro x
        rw [List.mem_cons, hrec.2 x]
        have hiff := hdrain.2.2.2.1 x
        constructor
        · rintro (rfl | hx)
          · exact hcurmem
          · rw [hd'h] at hx
            rcases hiff.mp (Or.inl hx) with hx' | rfl
            · exact hx'
            · exact hcurmem
        · intro hx
          rcases hiff.mpr (Or.inl hx) with hx' | rfl
          · right
            rw [hd'h]
            exact hx'
          · exact Or.inl rfl

theorem insertSortedU_mem (x y : ℕ) : ∀ l : List ℕ,
    y ∈ insertSortedU x l ↔ (y = x ∨ y ∈ l) := by
  intro l
  induction l with
  | nil => simp [insertSortedU]
  | cons a t ih =>
    unfold insertSortedU
    by_cases h1 : x < a
    · rw [if_pos h1]
      simp [List.mem_cons]
    · rw [if_neg h1]
      by_cases h2 : x = a
      · rw [if_pos h2]
        subst h2
        simp [List.mem_cons]
      · rw [if_neg h2]
        rw [List.mem_cons, List.mem_cons, ih]
        tauto

theorem insertSortedU_pairwise (x : ℕ) : ∀ {l : List ℕ},
    l.Pairwise (· < ·) → (insertSortedU x l).Pairwise (· < ·) := by
  intro l
  induction l with
  | nil =>
    intro h
    simp [insertSortedU]
  | cons a t ih =>
    intro h
    unfold insertSortedU
    by_cases h1 : x < a
    · rw [if_pos h1]
      refine List.Pairwise.cons ?_ h
      intro z hz
      rcases List.mem_cons.mp hz with rfl | hz'
      · exact h1
      · exact lt_trans h1 (List.rel_of_pairwise_cons h hz')
    · rw [if_neg h1]
      by_cases h2 : x = a
      · rw [if_pos h2]
        exact h
      · rw [if_neg h2]
        have hax : a < x := by omega
        refine List.Pairwise.cons ?_ (ih (List.Pairwise.of_cons h))
        intro z hz
        rcases (insertSortedU_mem x z t).mp hz with rfl | hz'
        · exact hax
        · exact List.rel_of_pairwise_cons h hz'

theorem sortedUnion_pairwise (ls : List (List ℕ)) :
    (sortedUnion ls).Pairwise (· < ·) := by
  unfold sortedUnion
  generalize (ls.foldr (fun l acc => l ++ acc) []) = flat
  induction flat with
  | nil => simp
  | cons a t ih => exact insertSortedU_pairwise a ih

theorem sortedUnion_mem (ls : List (List ℕ)) (x : ℕ) :
    x ∈ sortedUnion ls ↔ ∃ l ∈ ls, x ∈ l := by
  unfold sortedUnion
  have hflat : ∀ lls : List (List ℕ),
      x ∈ lls.foldr (fun l acc => l ++ acc) [] ↔ ∃ l ∈ lls, x ∈ l := by
    intro lls
    induction lls with
    | nil => simp
    | cons l lls ih =>
      simp only [List.foldr_cons, List.mem_append, ih, List.mem_cons]
      constructor
      · rintro (hx | ⟨l', hl', hx⟩)
        · exact ⟨l, Or.inl rfl, hx⟩
        · exact ⟨l', Or.inr hl', hx⟩
      · rintro ⟨l', hl' | hl', hx⟩
        · exact Or.inl (hl' ▸ hx)
        · exact Or.inr ⟨l', hl', hx⟩
  rw [← hflat ls]
  generalize (ls.foldr (fun l acc => l ++ acc) []) = flat
  induction flat with
  | nil => simp
  | cons a t ih =>
    simp only [List.foldr_cons, insertSortedU_mem, ih, List.mem_cons]

theorem newSlice_next (l : List ℕ) :
    (NewSlicePostingsIterator l []).Next =
      (decide (0 < l.length), ⟨l, [], 0⟩) := by
  show ((decide ((-1 + 1 : ℤ) < (l.length : ℤ))),
      ({ docIDs := l, freqs := [], pos := -1 + 1 } : SlicePostingsIterator)) = _
  have h2 : (-1 + 1 : ℤ) = 0 := by norm_num
  rw [h2]
  congr 1
  exact decide_eq_decide.mpr (by omega)

theorem newDisj_children (ls : List (List ℕ)) :
    ((ls.map (fun l => NewSlicePostingsIterator l [])).filterMap (fun child =>
      let r := child.Next
      if r.1 then some r.2 else none)) =
    (ls.filter (fun l => !l.isEmpty)).map
      (fun l => (⟨l, [], 0⟩ : SlicePostingsIterator)) := by
  induction ls with
  | nil => rfl
  | cons l ls ih =>
    rw [List.map_cons, List.filterMap_cons]
    cases l with
    | nil =>
      simp [newSlice_next, List.filter_cons, ih]
    | cons a t =>
      simp [newSlice_next, List.filter_cons, ih]

theorem measure_kids_le (ls : List (List ℕ)) :
    heapMeasure ((ls.filter (fun l => !l.isEmpty)).map
      (fun l => (⟨l, [], 0⟩ : SlicePostingsIterator))) ≤ (ls.map List.length).sum := by
  induction ls with
  | nil => exact le_refl _
  | cons l ls ih =>
    rw [List.filter_cons]
    by_cases hc : (!l.isEmpty) = true
    · rw [if_pos hc, List.map_cons, heapMeasure_cons, List.map_cons, List.sum_cons]
      have hr : remaining ⟨l, [], 0⟩ = l.length := rfl
      omega
    · rw [if_neg hc, List.map_cons, List.sum_cons]
      omega

/-- Emission of a freshly built disjunction over slice children: the
emitted doc ids are strictly ascending and are exactly the members of
the children's union. -/
theorem disjEmit_props (ls : List (List ℕ))
    (hs : ∀ l ∈ ls, l.Pairwise (· < ·)) :
    (disjEmit (NewDisjunctionIterator (ls.map (fun l => NewSlicePostingsIterator l [])))
      ((ls.map List.length).sum + 1)).Pairwise (· < ·) ∧
    (∀ x : ℕ, x ∈ disjEmit (NewDisjunctionIterator
        (ls.map (fun l => NewSlicePostingsIterator l [])))
      ((ls.map List.length).sum + 1) ↔ ∃ l ∈ ls, x ∈ l) := by
  set kids := (ls.filter (fun l => !l.isEmpty)).map
    (fun l => (⟨l, [], 0⟩ : SlicePostingsIterator)) with hkids
  have hd : (NewDisjunctionIterator (ls.map (fun l => NewSlicePostingsIterator l []))).h =
      heapInit iterLess kids := by
    show heapInit iterLess ((ls.map (fun l => NewSlicePostingsIterator l [])).filterMap
      (fun child => let r := child.Next; if r.1 then some r.2 else none)) = _
    rw [newDisj_children, hkids]
  have hkgood : ∀ it ∈ kids, goodIter it := by
    intro it hit
    obtain ⟨l, hl, rfl⟩ := List.mem_map.mp hit
    have hlmem : l ∈ ls := List.mem_of_mem_filter hl
    have hlne : l ≠ [] := by
      have := List.of_mem_filter hl
      simpa using this
    exact ⟨hs l hlmem, 0, rfl, List.length_pos.mpr hlne⟩
  have hkelems : ∀ x : ℕ, heapElems kids x ↔ ∃ l ∈ ls, x ∈ l := by
    intro x
    constructor
    · rintro ⟨it, hit, hinr⟩
      obtain ⟨l, hl, rfl⟩ := List.mem_map.mp hit
      exact ⟨l, List.mem_of_mem_filter hl, hinr.1⟩
    · rintro ⟨l, hl, hx⟩
      have hlne : l ≠ [] := by
        rintro rfl
        simp at hx
      refine ⟨⟨l, [], 0⟩, ?_, hx, ?_⟩
      · exact List.mem_map.mpr ⟨l, List.mem_filter.mpr ⟨hl, by simpa using hlne⟩, rfl⟩
      · show l.getD (0 : ℤ).toNat 0 ≤ x
        obtain ⟨j, hj, hje⟩ := mem_iff_getD.mp hx
        have hle := sorted_getD_le (hs l hl) (Nat.zero_le j) hj
        rw [hje] at hle
        exact hle
  have hinit := heapInit_spec iterLess SlicePostingsIterator.DocID (fun a b => rfl) kids
  have hgood : ∀ it ∈ heapInit iterLess kids, goodIter it :=
    fun it hit => hkgood it (hinit.2.1.mem_iff.mp hit)
  have helems : ∀ x : ℕ, heapElems (heapInit iterLess kids) x ↔ ∃ l ∈ ls, x ∈ l := by
    intro x
    rw [← hkelems x]
    constructor
    · rintro ⟨it, hit, hr⟩
      exact ⟨it, hinit.2.1.mem_iff.mp hit, hr⟩
    · rintro ⟨it, hit, hr⟩
      exact ⟨it, hinit.2.1.mem_iff.mpr hit, hr⟩
  have hmeas : heapMeasure (heapInit iterLess kids) < (ls.map List.length).sum + 1 := by
    rw [heapMeasure_perm hinit.2.1, hkids]
    have := measure_kids_le ls
    omega
  have hemit := disjEmitGo_spec ((ls.map List.length).sum + 1)
    (NewDisjunctionIterator (ls.map (fun l => NewSlicePostingsIterator l [])))
    (by rw [hd]; exact hmeas) (by rw [hd]; exact hgood) (by rw [hd]; exact hinit.1)
  refine ⟨hemit.1, ?_⟩
  intro x
  unfold disjEmit
  rw [hemit.2 x, hd]
  exact helems x

/-- Claim C6: a disjunction iterator over children emitting strictly
ascending doc-id lists emits, under repeated `next()`, exactly the
ascending union of the children's doc-id sets, each id once even when
several children share it. -/
theorem C6_disjunction_union (ls : List (List ℕ))
    (hs : ∀ l ∈ ls, l.Pairwise (· < ·)) :
    disjEmit (NewDisjunctionIterator (ls.map (fun l => NewSlicePostingsIterator l [])))
      ((ls.map List.length).sum + 1) = sortedUnion ls := by
  have hp := disjEmit_props ls hs
  refine sorted_strict_ext hp.1 (sortedUnion_pairwise ls) ?_
  intro x
  rw [hp.2 x, sortedUnion_mem ls x]

/-- Claim C6, witness: the repo's own disjunction test vector,
`[1,3,5] ∪ [2,3,6] = [1,2,3,5,6]` with the duplicate `3` collapsed. -/
theorem C6_witness :
    (∀ l ∈ [[1,3,5],[2,3,6]], l.Pairwise (· < ·)) ∧
    disjEmit (NewDisjunctionIterator
        ([[1,3,5],[2,3,6]].map (fun l => NewSlicePostingsIterator l [])))
      (([[1,3,5],[2,3,6]].map List.length).sum + 1) = sortedUnion [[1,3,5],[2,3,6]] :=
  ⟨by decide, C6_disjunction_union [[1,3,5],[2,3,6]] (by decide)⟩

/-! ### Interleaved `next`/`advance` sequences (claim C7)

`DisjunctionIterator.Advance` drains only children whose doc id is
strictly below the target and then reads the new root as the landed
doc — without consuming it.  A subsequent `Next` reads the same root
again, so the landed doc id is observed twice. -/

def c7Disj : DisjunctionIterator :=
  NewDisjunctionIterator ([[1,5,10],[3,7,10]].map (fun l => NewSlicePostingsIterator l []))

def c7AfterNext : Bool × DisjunctionIterator := c7Disj.Next

def c7AfterAdv : Bool × DisjunctionIterator := c7AfterNext.2.Advance 6

def c7AfterNext2 : Bool × DisjunctionIterator := c7AfterAdv.2.Next

/-- Claim C7, counterexample: on the disjunction of `[1,5,10]` and
`[3,7,10]`, the valid interleaving `next()` (observes 1), `advance(6)`
(target 6 is beyond the current doc 1; observes 7), `next()` observes 7
again — three successful calls whose observed doc ids 1, 7, 7 are not
strictly ascending. -/
theorem C7_counterexample :
    c7AfterNext.1 = true ∧ c7AfterNext.2.DocID = 1 ∧
    c7AfterAdv.1 = true ∧ c7AfterAdv.2.DocID = 7 ∧
    c7AfterNext2.1 = true ∧ c7AfterNext2.2.DocID = 7 := by decide

/-- A `next` or `advance(target)` call, as issued by a client. -/
inductive ItOp where
  | next : ItOp
  | advance : ℕ → ItOp
deriving DecidableEq, Repr

/-- Run a sequence of calls against a slice iterator, recording the doc
id observed after each call; `none` if a call fails or an `advance`
target is not beyond the current doc id. -/
def runSliceOps (it : SlicePostingsIterator) : List ItOp → Option (List ℕ)
  | [] => some []
  | ItOp.next :: ops =>
    let r := it.Next
    if r.1 then (runSliceOps r.2 ops).map (fun o => r.2.DocID :: o) else none
  | ItOp.advance t :: ops =>
    if 0 ≤ it.pos ∧ ¬ (it.DocID < t) then none
    else
      let r := it.Advance t
      if r.1 then (runSliceOps r.2 ops).map (fun o => r.2.DocID :: o) else none

/-- Run a sequence of calls against a conjunction iterator, recording
the doc id observed after each call; `none` if a call fails or an
`advance` target is not beyond the current doc id. -/
def runConjOps (c : ConjunctionIterator) : List ItOp → Option (List ℕ)
  | [] => some []
  | ItOp.next :: ops =>
    let r := c.Next
    if r.1 then (runConjOps r.2 ops).map (fun o => r.2.DocID :: o) else none
  | ItOp.advance t :: ops =>
    if 0 ≤ c.lead.pos ∧ ¬ (c.current < t) then none
    else
      let r := c.Advance t
      if r.1 then (runConjOps r.2 ops).map (fun o => r.2.DocID :: o) else none

theorem runSliceOps_next (it : SlicePostingsIterator) (ops : List ItOp) :
    runSliceOps it (ItOp.next :: ops) =
      if (it.Next).1 = true
      then (runSliceOps (it.Next).2 ops).map (fun o => (it.Next).2.DocID :: o)
      else none := rfl

theorem runSliceOps_adv (it : SlicePostingsIterator) (t : ℕ) (ops : List ItOp) :
    runSliceOps it (ItOp.advance t :: ops) =
      if 0 ≤ it.pos ∧ ¬ (it.DocID < t) then none
      else if (it.Advance t).1 = true
        then (runSliceOps (it.Advance t).2 ops).map (fun o => (it.Advance t).2.DocID :: o)
        else none := rfl

theorem runConjOps_next (c : ConjunctionIterator) (ops : List ItOp) :
    runConjOps c (ItOp.next :: ops) =
      if (c.Next).1 = true
      then (runConjOps (c.Next).2 ops).map (fun o => (c.Next).2.DocID :: o)
      else none := rfl

theorem runConjOps_adv (c : ConjunctionIterator) (t : ℕ) (ops : List ItOp) :
    runConjOps c (ItOp.advance t :: ops) =
      if 0 ≤ c.lead.pos ∧ ¬ (c.current < t) then none
      else if (c.Advance t).1 = true
        then (runConjOps (c.Advance t).2 ops).map (fun o => (c.Advance t).2.DocID :: o)
        else none := rfl

/-- Any valid interleaving of successful `next`/`advance` calls on a
slice iterator observes strictly ascending doc ids, all above the
starting cursor. -/
theorem runSliceOps_spec {l : List ℕ} (hs : l.Pairwise (· < ·)) :
    ∀ (ops : List ItOp) (it : SlicePostingsIterator) (lo : Option ℕ) (obs : List ℕ),
    Tracks it l lo →
    runSliceOps it ops = some obs →
    (∀ x ∈ obs, loLT lo x) ∧ obs.Pairwise (· < ·) := by
  intro ops
  induction ops with
  | nil =>
    intro it lo obs ht hrun
    have hobs : obs = [] := by
      have : some ([] : List ℕ) = some obs := hrun
      exact (Option.some.inj this).symm
    subst hobs
    exact ⟨fun x hx => absurd hx (List.not_mem_nil x), List.Pairwise.nil⟩
  | cons op ops ih =>
    intro it lo obs ht hrun
    cases op with
    | next =>
      by_cases hex : ∃ x ∈ l, loLT lo x
      · obtain ⟨m, hmm, hml, hmin⟩ := sorted_min_exists hs (loLT lo) hex
        have hnext := next_spec_found hs ht hmm hml hmin
        rw [runSliceOps_next, hnext.1, if_pos rfl] at hrun
        obtain ⟨obs', hrun', hobs⟩ := Option.map_eq_some'.mp hrun
        have hobs2 : obs = (it.Next).2.DocID :: obs' := hobs.symm
        subst hobs2
        have hdoc : (it.Next).2.DocID = m := Tracks.docID hnext.2
        have hrec := ih (it.Next).2 (some m) obs' hnext.2 hrun'
        constructor
        · intro x hx
          rcases List.mem_cons.mp hx with rfl | hx'
          · rw [hdoc]
            exact hml
          · exact loLT_of_le hml (le_of_lt (hrec.1 x hx'))
        · refine List.Pairwise.cons ?_ hrec.2
          intro y hy
          rw [hdoc]
          exact hrec.1 y hy
      · have hnone := next_spec_none hs ht (fun x hx hl => hex ⟨x, hx, hl⟩)
        rw [runSliceOps_next, hnone] at hrun
        simp at hrun
    | advance t =>
      rw [runSliceOps_adv] at hrun
      by_cases hval : 0 ≤ it.pos ∧ ¬ (it.DocID < t)
      · rw [if_pos hval] at hrun
        exact absurd hrun (by simp)
      · rw [if_neg hval] at hrun
        have hvalid : ∀ d : ℕ, lo = some d → d < t := by
          intro d hlo
          subst hlo
          obtain ⟨hl, i, hpos, hi, hget⟩ := ht
          have hdoc : it.DocID = d := Tracks.docID ⟨hl, i, hpos, hi, hget⟩
          by_contra hcon
          exact hval ⟨by rw [hpos]; omega, by rw [hdoc]; omega⟩
        by_cases hex : ∃ x ∈ l, loLE lo x ∧ t ≤ x
        · obtain ⟨m, hmm, ⟨hmle, hmt⟩, hmin⟩ :=
            sorted_min_exists hs (fun x => loLE lo x ∧ t ≤ x) hex
          have hadv := adv_spec_found hs ht hmm hmle hmt
            (fun x hx h1 h2 => hmin x hx ⟨h1, h2⟩)
          rw [hadv.1, if_pos rfl] at hrun
          obtain ⟨obs', hrun', hobs⟩ := Option.map_eq_some'.mp hrun
          have hobs2 : obs = (it.Advance t).2.DocID :: obs' := hobs.symm
          subst hobs2
          have hdoc : (it.Advance t).2.DocID = m := Tracks.docID hadv.2
          have hrec := ih (it.Advance t).2 (some m) obs' hadv.2 hrun'
          have hlom : loLT lo m := by
            cases lo with
            | none => trivial
            | some d => exact lt_of_lt_of_le (hvalid d rfl) hmt
          constructor
          · intro x hx
            rcases List.mem_cons.mp hx with rfl | hx'
            · rw [hdoc]
              exact hlom
            · exact loLT_of_le hlom (le_of_lt (hrec.1 x hx'))
          · refine List.Pairwise.cons ?_ hrec.2
            intro y hy
            rw [hdoc]
            exact hrec.1 y hy
        · have hadv := adv_spec_none hs ht (fun x hx h1 h2 => hex ⟨x, hx, h1, h2⟩)
          rw [hadv] at hrun
          simp at hrun

theorem conjAdv_found {L : List ℕ} {sls : List (List ℕ)} {lo : Option ℕ}
    {c : ConjunctionIterator} {t m : ℕ}
    (hsL : L.Pairwise (· < ·)) (hsls : ∀ l ∈ sls, l.Pairwise (· < ·))
    (hsync : ConjSync c L sls lo)
    (hcm : ConjCommon L sls m) (hle : loLE lo m) (htm : t ≤ m)
    (hmin : ∀ x, ConjCommon L sls x → loLE lo x → t ≤ x → m ≤ x) :
    (c.Advance t).1 = true ∧ (c.Advance t).2.DocID = m ∧
      ConjSync (c.Advance t).2 L sls (some m) := by
  obtain ⟨htl, hto⟩ := hsync
  have hlL : c.lead.docIDs = L := htl.1
  obtain ⟨t₀, ht₀mem, ⟨ht₀le, ht₀t⟩, ht₀min⟩ :=
    sorted_min_exists hsL (fun x => loLE lo x ∧ t ≤ x) ⟨m, hcm.1, hle, htm⟩
  have hadv := adv_spec_found hsL htl ht₀mem ht₀le ht₀t
    (fun x hx h1 h2 => ht₀min x hx ⟨h1, h2⟩)
  have htr₀ := hadv.2
  have hdoc₀ : ((c.lead.Advance t).2).DocID = t₀ := Tracks.docID htr₀
  obtain ⟨hl1, i₀, hpos₀, hi₀, hget₀⟩ := htr₀
  have ht₀m : t₀ ≤ m := ht₀min m hcm.1 ⟨hle, htm⟩
  have hrel : List.Forall₂
      (fun o s => Tracks o s.1 s.2 ∧ s.1.Pairwise (· < ·) ∧ loLE s.2 t₀)
      c.others (sls.map (fun l => (l, lo))) := by
    rw [List.forall₂_map_right_iff]
    exact List.Forall₂.imp
      (fun a b hab => ⟨hab.1, hab.2, loLE_of_le ht₀le (le_refl t₀)⟩)
      (forall₂_and_right hto hsls)
  have hmall : ∀ s ∈ sls.map (fun l => (l, lo)), m ∈ s.1 := by
    intro s hsmem
    obtain ⟨l, hl, rfl⟩ := List.mem_map.mp hsmem
    exact hcm.2 l hl
  have halign := alignGo_found hsL (c.lead.docIDs.length + 2) i₀ (c.lead.Advance t).2
    c.others (sls.map (fun l => (l, lo))) t₀ m
    (by rw [hlL]; omega) hl1 hpos₀ hi₀ hget₀ hrel ht₀m hcm.1 hmall
    (fun x hx hxL hxall => by
      refine hmin x ⟨hxL, ?_⟩ (loLE_of_le ht₀le hx) (le_trans ht₀t hx)
      intro l hl
      exact hxall (l, lo) (List.mem_map_of_mem _ hl))
  have hfa : List.Forall₂ (fun o l => Tracks o l (some m))
      (alignGo (c.lead.docIDs.length + 2) (c.lead.Advance t).2 c.others t₀).2.2.1 sls :=
    List.forall₂_map_right_iff.mp halign.2.2.2
  have heqN : c.Advance t =
      (true,
        { lead := (alignGo (c.lead.docIDs.length + 2) (c.lead.Advance t).2 c.others t₀).2.1,
          others :=
            (alignGo (c.lead.docIDs.length + 2) (c.lead.Advance t).2 c.others t₀).2.2.1,
          current :=
            (alignGo (c.lead.docIDs.length + 2) (c.lead.Advance t).2 c.others t₀).2.2.2 }) := by
    simp [ConjunctionIterator.Advance, hadv.1, hdoc₀, halign.1]
  rw [heqN]
  exact ⟨rfl, halign.2.1, halign.2.2.1, hfa⟩

theorem conjAdv_none {L : List ℕ} {sls : List (List ℕ)} {lo : Option ℕ}
    {c : ConjunctionIterator} {t : ℕ}
    (hsL : L.Pairwise (· < ·)) (hsls : ∀ l ∈ sls, l.Pairwise (· < ·))
    (hsync : ConjSync c L sls lo)
    (hnone : ∀ x, ConjCommon L sls x → loLE lo x → ¬ t ≤ x) :
    (c.Advance t).1 = false := by
  obtain ⟨htl, hto⟩ := hsync
  have hlL : c.lead.docIDs = L := htl.1
  by_cases hexL : ∃ x ∈ L, loLE lo x ∧ t ≤ x
  · obtain ⟨t₀, ht₀mem, ⟨ht₀le, ht₀t⟩, ht₀min⟩ :=
      sorted_min_exists hsL (fun x => loLE lo x ∧ t ≤ x) hexL
    have hadv := adv_spec_found hsL htl ht₀mem ht₀le ht₀t
      (fun x hx h1 h2 => ht₀min x hx ⟨h1, h2⟩)
    have hdoc₀ : ((c.lead.Advance t).2).DocID = t₀ := Tracks.docID hadv.2
    obtain ⟨hl1, i₀, hpos₀, hi₀, hget₀⟩ := hadv.2
    have hrel : List.Forall₂
        (fun o s => Tracks o s.1 s.2 ∧ s.1.Pairwise (· < ·) ∧ loLE s.2 t₀)
        c.others (sls.map (fun l => (l, lo))) := by
      rw [List.forall₂_map_right_iff]
      exact List.Forall₂.imp
        (fun a b hab => ⟨hab.1, hab.2, loLE_of_le ht₀le (le_refl t₀)⟩)
        (forall₂_and_right hto hsls)
    have halign := alignGo_none hsL (c.lead.docIDs.length + 2) i₀ (c.lead.Advance t).2
      c.others (sls.map (fun l => (l, lo))) t₀
      (by rw [hlL]; omega) hl1 hpos₀ hi₀ hget₀ hrel
      (fun x hx hxL hxall => by
        refine hnone x ⟨hxL, ?_⟩ (loLE_of_le ht₀le hx) (le_trans ht₀t hx)
        intro l hl
        exact hxall (l, lo) (List.mem_map_of_mem _ hl))
    simp only [ConjunctionIterator.Advance, hadv.1, hdoc₀]
    simp only [Bool.true_eq_false, if_false, halign]
    simp
  · have hadv : (c.lead.Advance t).1 = false :=
      adv_spec_none hsL htl (fun x hx h1 h2 => hexL ⟨x, hx, h1, h2⟩)
    simp only [ConjunctionIterator.Advance, hadv]
    simp

/-- Any valid interleaving of successful `next`/`advance` calls on a
synchronized conjunction observes strictly ascending doc ids, all above
the starting cursor. -/
theorem runConjOps_spec {L : List ℕ} {sls : List (List ℕ)}
    (hsL : L.Pairwise (· < ·)) (hsls : ∀ l ∈ sls, l.Pairwise (· < ·)) :
    ∀ (ops : List ItOp) (c : ConjunctionIterator) (lo : Option ℕ) (obs : List ℕ),
    ConjSync c L sls lo →
    (∀ d : ℕ, lo = some d → c.current = d) →
    runConjOps c ops = some obs →
    (∀ x ∈ obs, loLT lo x) ∧ obs.Pairwise (· < ·) := by
  intro ops
  induction ops with
  | nil =>
    intro c lo obs hsync hcur hrun
    have hobs : obs = [] := (Option.some.inj hrun).symm
    subst hobs
    exact ⟨fun x hx => absurd hx (List.not_mem_nil x), List.Pairwise.nil⟩
  | cons op ops ih =>
    intro c lo obs hsync hcur hrun
    cases op with
    | next =>
      by_cases hex : ∃ x ∈ L, ConjCommon L sls x ∧ loLT lo x
      · obtain ⟨m, hmm, ⟨hmc, hml⟩, hmin⟩ :=
          sorted_min_exists hsL (fun x => ConjCommon L sls x ∧ loLT lo x) hex
        have hnext := conjNext_found hsL hsls hsync hmc hml
          (fun x hxc hxl => hmin x hxc.1 ⟨hxc, hxl⟩)
        rw [runConjOps_next, hnext.1, if_pos rfl] at hrun
        obtain ⟨obs', hrun', hobs⟩ := Option.map_eq_some'.mp hrun
        have hobs2 : obs = (c.Next).2.DocID :: obs' := hobs.symm
        subst hobs2
        have hcur' : ∀ d : ℕ, (some m : Option ℕ) = some d → (c.Next).2.current = d := by
          intro d hd
          have hmd : m = d := Option.some.inj hd
          subst hmd
          exact hnext.2.1
        have hrec := ih (c.Next).2 (some m) obs' hnext.2.2 hcur' hrun'
        constructor
        · intro x hx
          rcases List.mem_cons.mp hx with rfl | hx'
          · rw [hnext.2.1]
            exact hml
          · exact loLT_of_le hml (le_of_lt (hrec.1 x hx'))
        · refine List.Pairwise.cons ?_ hrec.2
          intro y hy
          rw [hnext.2.1]
          exact hrec.1 y hy
      · have hnone := conjNext_none hsL hsls hsync
          (fun x hxc hxl => hex ⟨x, hxc.1, hxc, hxl⟩)
        rw [runConjOps_next, hnone] at hrun
        simp at hrun
    | advance t =>
      rw [runConjOps_adv] at hrun
      by_cases hval : 0 ≤ c.lead.pos ∧ ¬ (c.current < t)
      · rw [if_pos hval] at hrun
        exact absurd hrun (by simp)
      · rw [if_neg hval] at hrun
        have hvalid : ∀ d : ℕ, lo = some d → d < t := by
          intro d hlo
          have hcd : c.current = d := hcur d hlo
          subst hlo
          obtain ⟨hl, i, hpos, hi, hget⟩ := hsync.1
          by_contra hcon
          exact hval ⟨by rw [hpos]; omega, by rw [hcd]; omega⟩
        by_cases hex : ∃ x ∈ L, ConjCommon L sls x ∧ loLE lo x ∧ t ≤ x
        · obtain ⟨m, hmm, ⟨hmc, hmle, hmt⟩, hmin⟩ :=
            sorted_min_exists hsL (fun x => ConjCommon L sls x ∧ loLE lo x ∧ t ≤ x) hex
          have hadv := conjAdv_found hsL hsls hsync hmc hmle hmt
            (fun x hxc hxle hxt => hmin x hxc.1 ⟨hxc, hxle, hxt⟩)
          rw [hadv.1, if_pos rfl] at hrun
          obtain ⟨obs', hrun', hobs⟩ := Option.map_eq_some'.mp hrun
          have hobs2 : obs = (c.Advance t).2.DocID :: obs' := hobs.symm
          subst hobs2
          have hcur' : ∀ d : ℕ, (some m : Option ℕ) = some d →
              (c.Advance t).2.current = d := by
            intro d hd
            have hmd : m = d := Option.some.inj hd
            subst hmd
            exact hadv.2.1
          have hrec := ih (c.Advance t).2 (some m) obs' hadv.2.2 hcur' hrun'
          have hlom : loLT lo m := by
            cases lo with
            | none => trivial
            | some d => exact lt_of_lt_of_le (hvalid d rfl) hmt
          constructor
          · intro x hx
            rcases List.mem_cons.mp hx with rfl | hx'
            · rw [hadv.2.1]
              exact hlom
            · exact loLT_of_le hlom (le_of_lt (hrec.1 x hx'))
          · refine List.Pairwise.cons ?_ hrec.2
            intro y hy
            rw [hadv.2.1]
            exact hrec.1 y hy
        · have hadvn := conjAdv_none hsL hsls hsync
            (fun x hxc hxle hxt => hex ⟨x, hxc.1, hxc, hxle, hxt⟩)
          rw [hadvn] at hrun
          simp at hrun

/-- Claim C7 (amended): over ascending children, slice iterators and
conjunction iterators observe strictly ascending doc ids under EVERY
valid interleaving of successful `next()` and `advance(target)` calls
(targets beyond the current doc id); the disjunction iterator
guarantees strict ascent only for pure `next()` sequences — after an
`advance`, the landed doc is left unconsumed and the next `next()`
observes it again (see the counterexample). -/
theorem C7_amended :
    (∀ (l : List ℕ) (ops : List ItOp) (obs : List ℕ), l.Pairwise (· < ·) →
      runSliceOps (NewSlicePostingsIterator l []) ops = some obs →
      obs.Pairwise (· < ·)) ∧
    (∀ (ls : List (List ℕ)) (ops : List ItOp) (obs : List ℕ),
      (∀ l ∈ ls, l.Pairwise (· < ·)) →
      runConjOps (NewConjunctionIterator (ls.map (fun l => NewSlicePostingsIterator l [])))
        ops = some obs →
      obs.Pairwise (· < ·)) ∧
    (∀ ls : List (List ℕ), (∀ l ∈ ls, l.Pairwise (· < ·)) →
      (disjEmit (NewDisjunctionIterator (ls.map (fun l => NewSlicePostingsIterator l [])))
        ((ls.map List.length).sum + 1)).Pairwise (· < ·)) := by
  refine ⟨?_, ?_, ?_⟩
  · intro l ops obs hs hrun
    exact (runSliceOps_spec hs ops (NewSlicePostingsIterator l []) none obs
      ⟨rfl, rfl⟩ hrun).2
  · intro ls ops obs hsorted hrun
    cases hsc : sortByCost (ls.map (fun l => NewSlicePostingsIterator l [])) with
    | nil =>
      have hNew : NewConjunctionIterator (ls.map (fun l => NewSlicePostingsIterator l []))
          = { lead := default, others := [], current := 0 } := by
        unfold NewConjunctionIterator
        rw [hsc]
        rfl
      rw [hNew] at hrun
      refine (@runConjOps_spec [] [] List.Pairwise.nil
        (fun l hl => absurd hl (List.not_mem_nil l)) ops
        { lead := default, others := [], current := 0 } none obs ?_ ?_ hrun).2
      · exact ⟨⟨rfl, rfl⟩, List.Forall₂.nil⟩
      · intro d hd
        exact absurd hd (by simp)
    | cons s₀ srest =>
      have hNew : NewConjunctionIterator (ls.map (fun l => NewSlicePostingsIterator l []))
          = { lead := s₀, others := srest, current := 0 } := by
        unfold NewConjunctionIterator
        rw [hsc]
        rfl
      rw [hNew] at hrun
      have hmemall : ∀ it ∈ s₀ :: srest,
          ∃ l, l ∈ ls ∧ it = NewSlicePostingsIterator l [] := by
        intro it hit
        have h1 : it ∈ ls.map (fun l => NewSlicePostingsIterator l []) := by
          refine (sortByCost_perm _).mem_iff.mp ?_
          rw [hsc]
          exact hit
        obtain ⟨l, hl, rfl⟩ := List.mem_map.mp h1
        exact ⟨l, hl, rfl⟩
      obtain ⟨L0, hL0mem, hs₀⟩ := hmemall s₀ (List.mem_cons_self s₀ srest)
      have hdocL0 : s₀.docIDs = L0 := by rw [hs₀]; rfl
      have hsL : s₀.docIDs.Pairwise (· < ·) := by
        rw [hdocL0]
        exact hsorted L0 hL0mem
      have hsls : ∀ l ∈ srest.map (fun o => o.docIDs), l.Pairwise (· < ·) := by
        intro l hl
        obtain ⟨o, ho, rfl⟩ := List.mem_map.mp hl
        obtain ⟨l', hl', rfl⟩ := hmemall o (List.mem_cons_of_mem s₀ ho)
        exact hsorted l' hl'
      have hsync : ConjSync { lead := s₀, others := srest, current := 0 }
          s₀.docIDs (srest.map (fun o => o.docIDs)) none := by
        constructor
        · refine ⟨rfl, ?_⟩
          rw [hs₀]
          rfl
        · rw [List.forall₂_map_right_iff, List.forall₂_same]
          intro o ho
          obtain ⟨l', hl', rfl⟩ := hmemall o (List.mem_cons_of_mem s₀ ho)
          exact ⟨rfl, rfl⟩
      refine (runConjOps_spec hsL hsls ops
        { lead := s₀, others := srest, current := 0 } none obs hsync ?_ hrun).2
      intro d hd
      exact absurd hd (by simp)
  · intro ls hsorted
    exact (disjEmit_props ls hsorted).1

/-- Claim C7, witness: a slice iterator over `[1,5,10]` under the
interleaving `next(), advance(4), next()` observes `1, 5, 10`, strictly
ascending. -/
theorem C7_witness :
    runSliceOps (NewSlicePostingsIterator [1,5,10] [])
      [ItOp.next, ItOp.advance 4, ItOp.next] = some [1,5,10] ∧
    ([1,5,10] : List ℕ).Pairwise (· < ·) :=
  ⟨by decide, C7_amended.1 [1,5,10] [ItOp.next, ItOp.advance 4, ItOp.next] [1,5,10]
    (by decide) (by decide)⟩
